import Mathlib

/-!
# Verification of the cuverif 4-state logic simulator core

Shallow embedding of the cuverif sources (src/cuverif/...) in Lean 4,
together with theorems checking the natural-language specification
against the code.

Conventions used throughout:

* A signal lane is a pair of machine words (V, S); the sources store them
  in separate uint32 numpy buffers.  We model a lane as a pair of `Nat`s
  (the kernels only ever compare against 0 and 1 and write 0 or 1, so no
  wrap-around arithmetic occurs in any kernel; the XOR kernels use bitwise
  xor which agrees with `Nat.xor` on uint32 values that fit).
* A tensor (`LogicBuffers` content) is a `List Lane`; numpy's element-wise
  whole-array operations become `List.zipWith` / `List.map` over lanes.
* The `Chip` signal dictionary `self.signals` is modelled as a total
  function `String → List Lane`; the Python dict would raise `KeyError`
  for names outside its key set, but every name `Chip.step` looks up was
  inserted by `_init_signals` (it scans every port of every instance), so
  totalising the map does not change the behaviour of any modelled path.
-/

/-- One signal lane: the pair (V, S) of value and strength words, as held
in the two parallel uint32 buffers of the backend
(`cpu_backend.py`, comment at lines 29-30). -/
structure Lane where
  v : Nat
  s : Nat
deriving DecidableEq, Repr

/-- The four legal encodings of `core.py` lines 7-11:
0 = (0,1), 1 = (1,1), X = (0,0), Z = (1,0). -/
def fourState (a : Lane) : Prop :=
  (a.v = 0 ∧ a.s = 1) ∨ (a.v = 1 ∧ a.s = 1) ∨ (a.v = 0 ∧ a.s = 0) ∨ (a.v = 1 ∧ a.s = 0)

instance (a : Lane) : Decidable (fourState a) := by
  unfold fourState; infer_instance

/-- Strong logic low, (V,S) = (0,1). -/
def lane0 : Lane := ⟨0, 1⟩

/-- Strong logic high, (V,S) = (1,1). -/
def lane1 : Lane := ⟨1, 1⟩

/-- Unknown, (V,S) = (0,0). -/
def laneX : Lane := ⟨0, 0⟩

/-- High impedance, (V,S) = (1,0). -/
def laneZ : Lane := ⟨1, 0⟩

/-! ## CPU backend kernels (`backend/cpu_backend.py`), one lane at a time

numpy evaluates each kernel lane-wise with the same boolean masks for all
lanes, so the per-lane functions below are the exact content of the
vectorised code; the tensor-level versions are `zipWith`/`map` of these. -/

/-- `CpuBackend.logic_and` (cpu_backend.py lines 32-51), per lane.
`a_zero`/`b_zero`/`a_one`/`b_one` mirror the masks of the source;
the result is `np.where(both_one, 1, 0)` / `np.where(any_zero | both_one, 1, 0)`. -/
def logic_and_lane (a b : Lane) : Lane :=
  let a_zero := a.s == 1 && a.v == 0
  let b_zero := b.s == 1 && b.v == 0
  let any_zero := a_zero || b_zero
  let a_one := a.s == 1 && a.v == 1
  let b_one := b.s == 1 && b.v == 1
  let both_one := a_one && b_one
  ⟨if both_one then 1 else 0, if any_zero || both_one then 1 else 0⟩

/-- `CpuBackend.logic_or` (cpu_backend.py lines 53-68), per lane. -/
def logic_or_lane (a b : Lane) : Lane :=
  let a_one := a.s == 1 && a.v == 1
  let b_one := b.s == 1 && b.v == 1
  let any_one := a_one || b_one
  let a_zero := a.s == 1 && a.v == 0
  let b_zero := b.s == 1 && b.v == 0
  let both_zero := a_zero && b_zero
  ⟨if any_one then 1 else 0, if any_one || both_zero then 1 else 0⟩

/-- `CpuBackend.logic_xor` (cpu_backend.py lines 70-75), per lane. -/
def logic_xor_lane (a b : Lane) : Lane :=
  let valid := a.s == 1 && b.s == 1
  ⟨if valid then a.v ^^^ b.v else 0, if valid then 1 else 0⟩

/-- `CpuBackend.logic_not` (cpu_backend.py lines 77-82), per lane. -/
def logic_not_lane (a : Lane) : Lane :=
  let valid := a.s == 1
  ⟨if valid then a.v ^^^ 1 else 0, if valid then 1 else 0⟩

/-- `CpuBackend.dff_update` (cpu_backend.py lines 84-110), per lane.
The source initialises the result to D, then overwrites the
`rst_active & ~rst_invalid` lanes with (0,1), then overwrites the
`rst_invalid` lanes with (0,0); the sequential `let`s reproduce those
three masked assignments in order. -/
def dff_update_lane (d rst : Lane) : Lane :=
  let rst_invalid := rst.s == 0
  let rst_active := rst.v == 1
  let q := d
  let q := if rst_active && !rst_invalid then ⟨0, 1⟩ else q
  let q := if rst_invalid then ⟨0, 0⟩ else q
  q

/-- `CpuBackend.inject_fault` (cpu_backend.py lines 112-115), per lane.
`mask = en_mask.v.astype(bool)` enables every lane whose enable V word is
non-zero; on enabled lanes V is overwritten with the value mask V and S
is forced to 1, others are untouched. -/
def inject_fault_lane (target en val : Lane) : Lane :=
  let mask := !(en.v == 0)
  if mask then ⟨val.v, 1⟩ else target

/-! ## CUDA kernels (`cuda_kernels.py`), one lane at a time -/

/-- `k_and_4state` (cuda_kernels.py lines 36-65), body of the guarded branch. -/
def k_and_4state_lane (a b : Lane) : Lane :=
  let a_is_zero := a.v == 0 && a.s == 1
  let b_is_zero := b.v == 0 && b.s == 1
  if a_is_zero || b_is_zero then ⟨0, 1⟩
  else if a.s == 1 && b.s == 1 then ⟨a.v &&& b.v, 1⟩
  else ⟨0, 0⟩

/-- `k_or_4state` (cuda_kernels.py lines 68-98), body of the guarded branch. -/
def k_or_4state_lane (a b : Lane) : Lane :=
  let a_is_one := a.v == 1 && a.s == 1
  let b_is_one := b.v == 1 && b.s == 1
  if a_is_one || b_is_one then ⟨1, 1⟩
  else if a.s == 1 && b.s == 1 then ⟨a.v ||| b.v, 1⟩
  else ⟨0, 0⟩

/-- `k_dff_update_4state` (cuda_kernels.py lines 167-194), body of the
guarded branch. -/
def k_dff_update_4state_lane (d rst : Lane) : Lane :=
  if rst.s == 0 then ⟨0, 0⟩
  else if rst.v == 1 then ⟨0, 1⟩
  else ⟨d.v, d.s⟩

/-- `k_inject_fault` (cuda_kernels.py lines 199-213), body of the guarded
branch: enabled exactly when the enable V word equals 1. -/
def k_inject_fault_lane (target en val : Lane) : Lane :=
  if en.v == 1 then ⟨val.v, 1⟩ else target

/-! ## Tensor-level kernels

A `LogicBuffers` pair of n-lane arrays is a `List Lane`; the kernels act
lane-wise on tensors of a common batch size. -/

/-- Tensor-level 4-state AND. -/
def tAnd (a b : List Lane) : List Lane := List.zipWith logic_and_lane a b

/-- Tensor-level 4-state OR. -/
def tOr (a b : List Lane) : List Lane := List.zipWith logic_or_lane a b

/-- Tensor-level 4-state XOR. -/
def tXor (a b : List Lane) : List Lane := List.zipWith logic_xor_lane a b

/-- Tensor-level 4-state NOT. -/
def tNot (a : List Lane) : List Lane := List.map logic_not_lane a

/-- Tensor-level DFF update: `q_next := dff_update(d, rst)`. -/
def tDff (d rst : List Lane) : List Lane := List.zipWith dff_update_lane d rst

/-- Tensor-level fault overlay (`inject_fault`), lane by lane over the
three buffers. -/
def tForce : List Lane → List Lane → List Lane → List Lane
  | t :: ts, e :: es, x :: xs => inject_fault_lane t e x :: tForce ts es xs
  | _, _, _ => []

/-- Every lane of a tensor is one of the four legal encodings. -/
def fourStateT (t : List Lane) : Prop := ∀ l ∈ t, fourState l

instance (t : List Lane) : Decidable (fourStateT t) :=
  List.decidableBAll _ t

/-! ## C10: LogicTensor allocation on the CPU backend -/

/-- `CpuBackend.alloc_logic` (cpu_backend.py lines 14-17): both the V and
the S buffer are `np.zeros(batch_size)`. -/
def alloc_logic (batch_size : Nat) : List Nat × List Nat :=
  (List.replicate batch_size 0, List.replicate batch_size 0)

/-- A `LogicTensor` as a pair of same-backend buffers plus its batch size
(core.py lines 13-59); buffers are kept as separate V and S lists because
`ScanChain.scan_load` re-binds them independently. -/
structure LogicTensorB where
  batch_size : Nat
  v_data : List Nat
  s_data : List Nat
deriving DecidableEq, Repr

/-- `LogicTensor.__init__` on the CPU backend, Case 2 of core.py lines
47-50 (batch size given, no raw buffers): allocate via
`backend.alloc_logic`, then the invariant check of lines 58-59 raises for
`batch_size <= 0` (sizes are Nats here, so only 0 can trip it). -/
def logicTensor_from_batch (batch_size : Nat) : Except String LogicTensorB :=
  let bufs := alloc_logic batch_size
  if batch_size ≤ 0 then .error "Invalid batch_size"
  else .ok ⟨batch_size, bufs.1, bufs.2⟩

/-! ## C7: FaultCampaign.add_fault lane allocation -/

/-- One registered fault: the dict
`{"name": …, "type": …, "index": …}` of faults.py lines 77-81. -/
structure FaultRec where
  name : String
  ftype : Nat
  index : Nat
deriving DecidableEq, Repr

/-- `FaultCampaign` state (faults.py lines 59-64): batch size, fault
list, and the next free lane index, which starts at 1 because lane 0 is
the gold lane. -/
structure FaultCampaignS where
  batch_size : Nat
  fault_list : List FaultRec
  next_free_index : Nat
deriving DecidableEq, Repr

/-- `FaultCampaign.__init__` (faults.py lines 59-64). -/
def mkFaultCampaign (batch_size : Nat) : FaultCampaignS := ⟨batch_size, [], 1⟩

/-- `FaultCampaign.add_fault` (faults.py lines 66-83): raises when
`next_free_index >= batch_size`, otherwise appends the record and
returns the assigned lane index. -/
def add_fault (c : FaultCampaignS) (name : String) (ftype : Nat) :
    Except String (Nat × FaultCampaignS) :=
  if c.batch_size ≤ c.next_free_index then
    Except.error "Batch size too small for fault list!"
  else
    Except.ok (c.next_free_index,
      ⟨c.batch_size, c.fault_list ++ [⟨name, ftype, c.next_free_index⟩],
        c.next_free_index + 1⟩)

/-- The campaign state after a sequence of attempted `add_fault` calls;
a failing call raises and leaves the state unchanged. -/
def addAttempts (c : FaultCampaignS) (l : List (String × Nat)) : FaultCampaignS :=
  l.foldl (fun c p =>
    match add_fault c p.1 p.2 with
    | Except.ok r => r.2
    | Except.error _ => c) c

/-- Reachable-state invariant of a fault campaign. -/
def campInv (c : FaultCampaignS) (n : Nat) : Prop :=
  c.batch_size = n ∧ c.next_free_index = c.fault_list.length + 1 ∧
    c.fault_list.map (fun f => f.index) = List.range' 1 c.fault_list.length

/-! ## C6: FaultCampaign.get_masks

`get_masks` (faults.py lines 85-108) first fills the enable/value host
arrays, then builds the result tensors with
`core.LogicTensor(data_v=…, data_s=…)`.  But `LogicTensor.__init__`
(core.py lines 24-31) has no parameters named `data_v` or `data_s` — its
keyword parameters are `batch_size`, `backend`, `v_data` and `s_data` —
so under Python call semantics this raises
`TypeError: unexpected keyword argument` before any tensor is created.
We model the keyword binding step explicitly. -/

/-- Parameter names of `LogicTensor.__init__` (core.py lines 24-31). -/
def logicTensorInitKeywords : List String := ["batch_size", "backend", "v_data", "s_data"]

/-- Write `arr[i] = x` (numpy single-element assignment).  `add_fault`
guarantees `i < batch_size` for every registered fault, so the
out-of-range case never occurs on campaign data. -/
def setIdx (arr : List Nat) (i x : Nat) : List Nat := arr.set i x

/-- `FaultCampaign.get_masks` (faults.py lines 85-108): fill `en_host`
and `val_host` from the faults registered on the signal, then construct
the two LogicTensors.  The constructor calls pass the keyword arguments
`data_v` and `data_s`; if those names were accepted the intended tensors
(V = host array, S = all ones) would result, but they are not, so the
call raises TypeError. -/
def get_masks (c : FaultCampaignS) (current_signal_name : String) :
    Except String (LogicTensorB × LogicTensorB) :=
  let hosts := c.fault_list.foldl
    (fun (arrs : List Nat × List Nat) f =>
      if f.name = current_signal_name then
        (setIdx arrs.1 f.index 1, setIdx arrs.2 f.index f.ftype)
      else arrs)
    (List.replicate c.batch_size 0, List.replicate c.batch_size 0)
  if ["data_v", "data_s"].all (fun k => logicTensorInitKeywords.contains k) then
    Except.ok (⟨c.batch_size, hosts.1, List.replicate c.batch_size 1⟩,
      ⟨c.batch_size, hosts.2, List.replicate c.batch_size 1⟩)
  else
    Except.error "TypeError: unexpected keyword argument data_v"

/-! ## C8: ScanChain.scan_load -/

/-- A flip-flop as `ScanChain` sees it: its batch size and the V/S
buffers of its Q tensor (modules.py `DFlipFlop`, fields used by
`scan_load`). -/
structure DFlipFlopS where
  batch_size : Nat
  qv : List Nat
  qs : List Nat
deriving DecidableEq, Repr

/-- `ScanChain.scan_load` (modules.py lines 61-127).  The only shape
check in the source is `pattern_val.shape[1] != self.length`; the row
count is never compared with the batch size.  After the check, register
i's Q buffers are re-bound to column i of the pattern and to the
matching X column (or to `np.ones(reg.batch_size)` when `pattern_x` is
absent).  A matrix is a list of rows; the `shape[1]` of a rectangular
numpy matrix is the common row length. -/
def scan_load (chain : List DFlipFlopS) (pattern_val : List (List Nat))
    (pattern_x : Option (List (List Nat))) : Except String (List DFlipFlopS) :=
  if (pattern_val.headD []).length ≠ chain.length then
    Except.error "Pattern length != Chain length"
  else
    Except.ok (chain.enum.map (fun p =>
      ⟨p.2.batch_size,
       pattern_val.map (fun row => row.getD p.1 0),
       match pattern_x with
       | some px => px.map (fun row => row.getD p.1 0)
       | none => List.replicate p.2.batch_size 1⟩))

/-! ## Netlist model (`compiler.py`)

`Chip` keeps a dict of instance records `{type, name, ports}` and a
signal dict name → LogicTensor.  Tensors here are `List Lane`; the
signal dict is a total function (see the header note). -/

/-- One gate instance record (compiler.py lines 370-374): the dict keys
`type`, `name`, `ports`. -/
structure Inst where
  gtype : String
  gname : String
  ports : List String
deriving DecidableEq, Repr

/-- The `self.signals` dict of a Chip. -/
def SigMap : Type := String → List Lane

/-- `self.signals[out_name] = res` (compiler.py line 197). -/
def updateSig (m : SigMap) (n : String) (t : List Lane) : SigMap :=
  fun x => if x = n then t else m x

/-- The gate-type dispatch of `Chip.step` (compiler.py lines 162-194):
given the gate type and the list of input tensors, the computed result,
or `none` for an unknown type (the `continue` branch).  A recognised
type with an empty input list would raise IndexError on `inputs[0]` in
the source; that case also maps to `none` and is excluded by the
well-formedness hypotheses of the theorems that quantify over netlists. -/
def combValue (gtype : String) (inputs : List (List Lane)) : Option (List Lane) :=
  match gtype, inputs with
  | "and", i :: rest => some (rest.foldl tAnd i)
  | "or", i :: rest => some (rest.foldl tOr i)
  | "xor", i :: rest => some (rest.foldl tXor i)
  | "not", i :: _ => some (tNot i)
  | "nand", i :: rest => some (tNot (rest.foldl tAnd i))
  | "nor", i :: rest => some (tNot (rest.foldl tOr i))
  | "xnor", i :: rest => some (tNot (rest.foldl tXor i))
  | "buf", i :: _ => some i
  | _, _ => none

/-- One iteration of the combinational loop of `Chip.step` (compiler.py
lines 149-197): port 0 is the output, ports 1.. are the inputs, the
computed tensor replaces the signal-dict entry of the output. -/
def evalComb (m : SigMap) (g : Inst) : SigMap :=
  match g.ports with
  | [] => m
  | out :: ins =>
    match combValue g.gtype (ins.map m) with
    | some res => updateSig m out res
    | none => m

/-- The output signal of a gate record: `gate['ports'][0]`
(compiler.py line 85). -/
def outName (g : Inst) : String := g.ports.headD ""

/-- The input signals of a gate record: `gate['ports'][1:]`
(compiler.py line 95). -/
def inNames (g : Inst) : List String := g.ports.tail

/-- `comb_gates = [inst for inst in instances if inst['type'] != 'dff']`
(compiler.py line 74). -/
def combGates (insts : List Inst) : List Inst :=
  insts.filter (fun g => g.gtype != "dff")

/-- `producer_map` (compiler.py lines 81-86): map each signal to the
index of the last combinational gate that has it as port 0. -/
def producerOf (comb : List Inst) : String → Option Nat :=
  comb.enum.foldl (fun pm p => fun s => if s = outName p.2 then some p.1 else pm s)
    (fun _ => none)

/-- The dependency edges of the combinational graph (compiler.py lines
93-100): one edge (producer, consumer) for every input signal of every
gate whose producer exists, in gate-then-port iteration order.  The
source materialises these as the adjacency dict `adj` and the counter
dict `in_degree` in a single pass; `adjOf` and `indeg0` below read the
same multiset off this list. -/
def edgesOf (comb : List Inst) : List (Nat × Nat) :=
  comb.enum.flatMap (fun p =>
    (inNames p.2).filterMap (fun s => (producerOf comb s).map (fun u => (u, p.1))))

/-- `adj[u]`: consumers of gate u's output, in insertion order. -/
def adjOf (comb : List Inst) : Nat → List Nat :=
  fun u => ((edgesOf comb).filter (fun e => e.1 == u)).map (fun e => e.2)

/-- `in_degree[v]`: number of dependency edges into gate v.  Python ints
can go negative during the relaxation loop, hence `Int`. -/
def indeg0 (comb : List Inst) : Nat → Int :=
  fun v => (((edgesOf comb).filter (fun e => e.2 == v)).length : Int)

/-- The body of `for v in adj[u]: in_degree[v] -= 1; if == 0: append`
(compiler.py lines 110-113). -/
def kahnRelax (st : List Nat × (Nat → Int)) (v : Nat) : List Nat × (Nat → Int) :=
  let d := fun x => if x = v then st.2 x - 1 else st.2 x
  (if d v = 0 then st.1 ++ [v] else st.1, d)

/-- The `while queue:` loop of Kahn's algorithm (compiler.py lines
106-113), popping from the front.  The loop pops each gate at most once
(a gate enters the queue only when its in-degree first reaches 0, and
in-degrees only decrease), so at most `comb.length` iterations occur and
the explicit fuel of `comb.length + 1` is never exhausted; the fuel-0
arm is unreachable and exists only to make the recursion structural. -/
def kahnLoop (adj : Nat → List Nat) : Nat → List Nat → (Nat → Int) → List Nat → List Nat
  | 0, _, _, done => done
  | _ + 1, [], _, done => done
  | fuel + 1, u :: rest, indeg, done =>
    let st := (adj u).foldl kahnRelax (rest, indeg)
    kahnLoop adj fuel st.1 st.2 (done ++ [u])

/-- `Chip._topological_sort` (compiler.py lines 70-121) as the list of
sorted gate indices.  When a combinational cycle exists the length check
at line 115 falls into a `pass` (the `raise` is commented out), so the
gates of the cycle are silently dropped from the result. -/
def kahnSort (comb : List Inst) : List Nat :=
  let n := comb.length
  kahnLoop (adjOf comb) (n + 1)
    ((List.range n).filter (fun i => indeg0 comb i == 0)) (indeg0 comb) []

/-- `[comb_gates[i] for i in sorted_indices]` (compiler.py line 121). -/
def sortedGates (insts : List Inst) : List Inst :=
  (kahnSort (combGates insts)).map (fun i => (combGates insts).getD i ⟨"", "", []⟩)

/-- `self.dffs` (compiler.py line 55). -/
def dffsOf (insts : List Inst) : List Inst :=
  insts.filter (fun g => g.gtype == "dff")

/-- Phase 1 of `Chip.step`: the combinational gates in compiled order. -/
def combPhase (insts : List Inst) (m : SigMap) : SigMap :=
  (sortedGates insts).foldl evalComb m

/-- Q_next of one DFF instance (compiler.py lines 239-307): ports are
(q, d, clk, rst); with a reset port present, `backend.dff_update` fills a
fresh tensor from the current D and reset tensors; without one, Q_next is
the current D tensor itself. -/
def dffNext (g : Inst) (m : SigMap) : List Lane :=
  if 3 < g.ports.length then tDff (m (g.ports.getD 1 "")) (m (g.ports.getD 3 ""))
  else m (g.ports.getD 1 "")

/-- Phase 3 of `Chip.step` (compiler.py lines 309-311): publish all
computed Q_next tensors into the signal dict. -/
def publishQ (updates : List (String × List Lane)) (m : SigMap) : SigMap :=
  updates.foldl (fun acc p => updateSig acc p.1 p.2) m

/-- `Chip.step` (compiler.py lines 139-311): run the combinational gates
in topological order, then compute every DFF's Q_next from the resulting
(pre-edge) signal map, then publish all Q tensors. -/
def stepChip (insts : List Inst) (m : SigMap) : SigMap :=
  let m1 := combPhase insts m
  publishQ ((dffsOf insts).map (fun g => (g.ports.headD "", dffNext g m1))) m1

/-- A compiled `Chip` (compiler.py lines 30-55). -/
structure Chip where
  cname : String
  inputs : List String
  outputs : List String
  wires : List String
  instances : List Inst
  batch_size : Nat
  signals : SigMap
  sorted_gates : List Inst
  dffs : List Inst

/-- `Chip._init_signals` (compiler.py lines 57-68): every declared or
port-referenced name gets `cv.zeros(batch)`, i.e. all lanes (V,S)=(0,1);
other names stay outside the dict (modelled as the empty tensor). -/
def initSignals (inputs outputs wires : List String) (insts : List Inst)
    (batch : Nat) : SigMap :=
  fun s =>
    if s ∈ inputs ++ outputs ++ wires ++ insts.flatMap (fun g => g.ports) then
      List.replicate batch lane0
    else []

/-- `Chip.__init__` (compiler.py lines 34-55).  Total: no construction
path raises on a combinational cycle (the raise at line 118 is commented
out). -/
def mkChip (cname : String) (inputs outputs wires : List String)
    (insts : List Inst) (batch : Nat) : Chip :=
  { cname := cname, inputs := inputs, outputs := outputs, wires := wires,
    instances := insts, batch_size := batch,
    signals := initSignals inputs outputs wires insts batch,
    sorted_gates := sortedGates insts,
    dffs := dffsOf insts }

/-- The two cross-coupled flip-flops of the claim: q1 ← DFF(q2),
q2 ← DFF(q1), shared inactive reset. -/
def crossInsts : List Inst :=
  [⟨"dff", "ff1", ["q1", "q2", "clk", "rst"]⟩,
   ⟨"dff", "ff2", ["q2", "q1", "clk", "rst"]⟩]

/-- Starting state for the cross-coupled pair: q2 = 1, every other
signal (q1, rst, …) = 0. -/
def crossM0 : SigMap :=
  fun s => if s = "q2" then [lane1] else [lane0]

/-- A two-gate combinational cycle: y = buf(z), z = buf(y). -/
def cyclicInsts : List Inst :=
  [⟨"buf", "g0", ["y", "z"]⟩, ⟨"buf", "g1", ["z", "y"]⟩]

/-- The same cycle plus an unrelated acyclic gate w = buf(a). -/
def cyclicPlusInsts : List Inst :=
  cyclicInsts ++ [⟨"buf", "g2", ["w", "a"]⟩]

/-! ## C9: combinational purity

The proof has three layers:

1. `evalList_idem`: running a gate list twice equals running it once,
   provided the list is write-ordered (`orderedWrites`): whenever a gate
   reads a signal that some gate of the list writes, an earlier gate of
   the list writes it.
2. `kahnSort` produces an order in which every dependency edge points
   forward (`kahn_edges_forward`), via the classic queue invariant.
3. The compiled order of any well-formed netlist is write-ordered,
   because every written signal has a producer edge. -/

/-- The gate types recognised by the dispatch of `Chip.step`. -/
def validCombTypes : List String := ["and", "or", "xor", "not", "nand", "nor", "xnor", "buf"]

/-- The signal a gate instance writes when `Chip.step` evaluates it:
its port 0, provided the type is recognised and at least one input port
is present (otherwise the step loop leaves the signal map unchanged). -/
def writesOut (g : Inst) : Option String :=
  match g.ports with
  | out :: _ :: _ => if g.gtype ∈ validCombTypes then some out else none
  | _ => none

/-- Placeholder instance used as the `getD` default. -/
def noInst : Inst := ⟨"", "", []⟩

/-- Evaluate a list of combinational gates left to right, as phase 1 of
`Chip.step` does. -/
def evalList (L : List Inst) (m : SigMap) : SigMap := L.foldl evalComb m

/-- A gate list is write-ordered when every signal a gate reads that is
written by some gate of the list is written by a strictly earlier gate. -/
def orderedWrites (L : List Inst) : Prop :=
  ∀ p, p < L.length → ∀ t, t ∈ inNames (L.getD p noInst) →
    (∃ j, j < L.length ∧ writesOut (L.getD j noInst) = some t) →
    ∃ q, q < p ∧ writesOut (L.getD q noInst) = some t

/-! ### Edge counting for the queue invariant -/

/-- The adjacency function read off an edge list; `adjOf comb` is exactly
`adjFromE (edgesOf comb)`. -/
def adjFromE (E : List (Nat × Nat)) : Nat → List Nat :=
  fun u => ((E.filter (fun e => e.1 == u)).map (fun e => e.2))

/-- Number of edges into v whose source has not been popped yet. -/
def edgeCount (E : List (Nat × Nat)) (v : Nat) (done : List Nat) : Int :=
  (E.countP (fun e => decide (e.2 = v ∧ e.1 ∉ done)) : Int)

/-- A concrete purely combinational chip and input map for the witness. -/
def demoInsts : List Inst :=
  [⟨"and", "g1", ["c", "a", "b"]⟩, ⟨"not", "g2", ["d", "c"]⟩]

/-- All-ones input map for the witness. -/
def demoM : SigMap := fun _ => [lane1]

/-! ## Theorems -/

/-! ## Small list lemmas used to move between tensors and lanes -/

theorem getD_zipWith (f : Lane → Lane → Lane) (d : Lane) :
    ∀ (a b : List Lane) (i : Nat), i < a.length → i < b.length →
      (List.zipWith f a b).getD i d = f (a.getD i d) (b.getD i d) := by
  intro a
  induction a with
  | nil => intro b i h _; exact absurd h (by simp)
  | cons x xs ih =>
    intro b i h1 h2
    cases b with
    | nil => exact absurd h2 (by simp)
    | cons y ys =>
      cases i with
      | zero => simp [List.zipWith]
      | succ j =>
        simp only [List.zipWith, List.getD_cons_succ]
        exact ih ys j (by simpa using h1) (by simpa using h2)

theorem mem_zipWith_prop (f : Lane → Lane → Lane) (P : Lane → Prop)
    (h : ∀ x y, fourState x → fourState y → P (f x y)) :
    ∀ (a b : List Lane), fourStateT a → fourStateT b →
      ∀ l ∈ List.zipWith f a b, P l := by
  intro a
  induction a with
  | nil => intro b _ _ l hl; simp [List.zipWith] at hl
  | cons x xs ih =>
    intro b ha hb l hl
    cases b with
    | nil => simp [List.zipWith] at hl
    | cons y ys =>
      simp only [List.zipWith, List.mem_cons] at hl
      rcases hl with h1 | h2
      · subst h1
        exact h x y (ha x (by simp)) (hb y (by simp))
      · exact ih ys (fun z hz => ha z (by simp [hz])) (fun z hz => hb z (by simp [hz])) l h2

/-! ## Lane-level truth tables -/

/-- Case analysis helper: a 4-state lane is literally one of the four
constants. -/
theorem fourState_cases {a : Lane} (h : fourState a) :
    a = lane0 ∨ a = lane1 ∨ a = laneX ∨ a = laneZ := by
  obtain ⟨v, s⟩ := a
  rcases h with ⟨hv, hs⟩ | ⟨hv, hs⟩ | ⟨hv, hs⟩ | ⟨hv, hs⟩ <;>
    subst hv <;> subst hs <;> simp [lane0, lane1, laneX, laneZ]

/-- The AND truth table of the spec, as satisfied by the CPU kernel. -/
theorem logic_and_lane_table (x y : Lane) (hx : fourState x) (hy : fourState y) :
    logic_and_lane x y =
      (if x = lane0 ∨ y = lane0 then lane0
       else if x = lane1 ∧ y = lane1 then lane1
       else laneX) := by
  rcases fourState_cases hx with h | h | h | h <;>
    rcases fourState_cases hy with h' | h' | h' | h' <;>
      subst h <;> subst h' <;> decide

/-- The OR truth table of the spec, as satisfied by the CPU kernel. -/
theorem logic_or_lane_table (x y : Lane) (hx : fourState x) (hy : fourState y) :
    logic_or_lane x y =
      (if x = lane1 ∨ y = lane1 then lane1
       else if x = lane0 ∧ y = lane0 then lane0
       else laneX) := by
  rcases fourState_cases hx with h | h | h | h <;>
    rcases fourState_cases hy with h' | h' | h' | h' <;>
      subst h <;> subst h' <;> decide

/-- On 4-state lanes the CUDA AND kernel agrees with the CPU kernel. -/
theorem k_and_eq_cpu (x y : Lane) (hx : fourState x) (hy : fourState y) :
    k_and_4state_lane x y = logic_and_lane x y := by
  rcases fourState_cases hx with h | h | h | h <;>
    rcases fourState_cases hy with h' | h' | h' | h' <;>
      subst h <;> subst h' <;> decide

/-- On 4-state lanes the CUDA OR kernel agrees with the CPU kernel. -/
theorem k_or_eq_cpu (x y : Lane) (hx : fourState x) (hy : fourState y) :
    k_or_4state_lane x y = logic_or_lane x y := by
  rcases fourState_cases hx with h | h | h | h <;>
    rcases fourState_cases hy with h' | h' | h' | h' <;>
      subst h <;> subst h' <;> decide

/-- The CUDA DFF kernel agrees with the CPU DFF kernel on every pair of
lanes (both reduce to: S(rst)=0 ⇒ X; else V(rst)=1 ⇒ strong 0; else D). -/
theorem k_dff_eq_cpu (d rst : Lane) :
    k_dff_update_4state_lane d rst = dff_update_lane d rst := by
  unfold k_dff_update_4state_lane dff_update_lane
  by_cases h0 : rst.s = 0 <;> by_cases h1 : rst.v = 1 <;>
    simp [h0, h1]

theorem getD_mem_of_lt (a : List Lane) (i : Nat) (d : Lane) (h : i < a.length) :
    a.getD i d ∈ a := by
  rw [List.getD_eq_getElem a d h]
  exact List.getElem_mem h

theorem dff_update_lane_cases (dd r : Lane) :
    (r.s = 0 → dff_update_lane dd r = laneX) ∧
    (r = lane1 → dff_update_lane dd r = lane0) ∧
    (r = lane0 → dff_update_lane dd r = dd) := by
  refine ⟨?_, ?_, ?_⟩
  · intro h
    simp [dff_update_lane, h, laneX]
  · intro h
    subst h
    simp [dff_update_lane, lane1, lane0]
  · intro h
    subst h
    simp [dff_update_lane, lane0]

/-- C1: for every pair of 4-state input tensors and every lane, the AND
kernel returns 0 when either input lane is 0, 1 when both are 1, and X
otherwise; dually the OR kernel returns 1 when either input lane is 1,
0 when both are 0, and X otherwise — so the controlling value dominates
even when the other input lane is X or Z.  The last two conjuncts show
the CUDA kernels compute the same lane function as the CPU kernels on
4-state lanes. -/
theorem c1_and_or_controlling_dominance (a b : List Lane)
    (ha : fourStateT a) (hb : fourStateT b)
    (i : Nat) (hia : i < a.length) (hib : i < b.length) :
    (tAnd a b).getD i laneX =
      (if a.getD i laneX = lane0 ∨ b.getD i laneX = lane0 then lane0
       else if a.getD i laneX = lane1 ∧ b.getD i laneX = lane1 then lane1
       else laneX) ∧
    (tOr a b).getD i laneX =
      (if a.getD i laneX = lane1 ∨ b.getD i laneX = lane1 then lane1
       else if a.getD i laneX = lane0 ∧ b.getD i laneX = lane0 then lane0
       else laneX) ∧
    k_and_4state_lane (a.getD i laneX) (b.getD i laneX) =
      logic_and_lane (a.getD i laneX) (b.getD i laneX) ∧
    k_or_4state_lane (a.getD i laneX) (b.getD i laneX) =
      logic_or_lane (a.getD i laneX) (b.getD i laneX) := by
  have hx : fourState (a.getD i laneX) := ha _ (getD_mem_of_lt a i laneX hia)
  have hy : fourState (b.getD i laneX) := hb _ (getD_mem_of_lt b i laneX hib)
  refine ⟨?_, ?_, ?_, ?_⟩
  · rw [tAnd, getD_zipWith _ _ a b i hia hib]
    exact logic_and_lane_table _ _ hx hy
  · rw [tOr, getD_zipWith _ _ a b i hia hib]
    exact logic_or_lane_table _ _ hx hy
  · exact k_and_eq_cpu _ _ hx hy
  · exact k_or_eq_cpu _ _ hx hy

/-- Witness for C1 at concrete tensors: 0 AND X = 0 and Z OR 1 = 1
(controlling value wins against X and Z). -/
theorem c1_witness :
    (tAnd [laneX] [lane0]).getD 0 laneX = lane0 ∧
    (tOr [laneZ] [lane1]).getD 0 laneX = lane1 := by
  have h1 := c1_and_or_controlling_dominance [laneX] [lane0]
    (by decide) (by decide) 0 (by decide) (by decide)
  have h2 := c1_and_or_controlling_dominance [laneZ] [lane1]
    (by decide) (by decide) 0 (by decide) (by decide)
  constructor
  · rw [h1.1]; decide
  · rw [h2.2.1]; decide

/-- C2: for every lane of the flip-flop update: if the reset lane has
S = 0 (X or Z) then the next Q lane is X regardless of D; else if the
reset lane is logic 1 then the next Q lane is strong 0 regardless of D;
else (reset is logic 0) the next Q lane equals the D lane exactly, V and
S words both.  The last conjunct shows the CUDA DFF kernel computes the
same lane function as the CPU kernel. -/
theorem c2_dff_reset_priority (d rst : List Lane)
    (i : Nat) (hid : i < d.length) (hir : i < rst.length) :
    ((rst.getD i laneX).s = 0 → (tDff d rst).getD i laneX = laneX) ∧
    (rst.getD i laneX = lane1 → (tDff d rst).getD i laneX = lane0) ∧
    (rst.getD i laneX = lane0 → (tDff d rst).getD i laneX = d.getD i laneX) ∧
    k_dff_update_4state_lane (d.getD i laneX) (rst.getD i laneX) =
      dff_update_lane (d.getD i laneX) (rst.getD i laneX) := by
  rw [tDff, getD_zipWith _ _ d rst i hid hir]
  exact ⟨(dff_update_lane_cases _ _).1, (dff_update_lane_cases _ _).2.1,
    (dff_update_lane_cases _ _).2.2, k_dff_eq_cpu _ _⟩

/-- Witness for C2 at concrete tensors: with D = 1 on every lane,
reset = X gives Q = X, reset = 1 gives Q = 0, reset = 0 gives Q = D. -/
theorem c2_witness :
    (tDff [lane1] [laneX]).getD 0 laneX = laneX ∧
    (tDff [lane1] [lane1]).getD 0 laneX = lane0 ∧
    (tDff [lane1] [lane0]).getD 0 laneX = lane1 := by
  refine ⟨?_, ?_, ?_⟩
  · exact (c2_dff_reset_priority [lane1] [laneX] 0 (by decide) (by decide)).1 (by decide)
  · exact (c2_dff_reset_priority [lane1] [lane1] 0 (by decide) (by decide)).2.1 (by decide)
  · exact (c2_dff_reset_priority [lane1] [lane0] 0 (by decide) (by decide)).2.2.1 (by decide)

/-! ## C5: four-state closure -/

theorem logic_and_lane_closure (x y : Lane) (hx : fourState x) (hy : fourState y) :
    fourState (logic_and_lane x y) ∧ logic_and_lane x y ≠ laneZ := by
  rcases fourState_cases hx with h | h | h | h <;>
    rcases fourState_cases hy with h' | h' | h' | h' <;>
      subst h <;> subst h' <;> decide

theorem logic_or_lane_closure (x y : Lane) (hx : fourState x) (hy : fourState y) :
    fourState (logic_or_lane x y) ∧ logic_or_lane x y ≠ laneZ := by
  rcases fourState_cases hx with h | h | h | h <;>
    rcases fourState_cases hy with h' | h' | h' | h' <;>
      subst h <;> subst h' <;> decide

theorem logic_xor_lane_closure (x y : Lane) (hx : fourState x) (hy : fourState y) :
    fourState (logic_xor_lane x y) ∧ logic_xor_lane x y ≠ laneZ := by
  rcases fourState_cases hx with h | h | h | h <;>
    rcases fourState_cases hy with h' | h' | h' | h' <;>
      subst h <;> subst h' <;> decide

theorem logic_not_lane_closure (x : Lane) (hx : fourState x) :
    fourState (logic_not_lane x) ∧ logic_not_lane x ≠ laneZ := by
  rcases fourState_cases hx with h | h | h | h <;> subst h <;> decide

theorem dff_update_lane_closure (x y : Lane) (hx : fourState x) (hy : fourState y) :
    fourState (dff_update_lane x y) := by
  rcases fourState_cases hx with h | h | h | h <;>
    rcases fourState_cases hy with h' | h' | h' | h' <;>
      subst h <;> subst h' <;> decide

theorem inject_fault_lane_closure (t e x : Lane)
    (ht : fourState t) (he : fourState e) (hx : fourState x) :
    fourState (inject_fault_lane t e x) ∧ fourState (k_inject_fault_lane t e x) := by
  rcases fourState_cases ht with h | h | h | h <;>
    rcases fourState_cases he with h' | h' | h' | h' <;>
      rcases fourState_cases hx with h'' | h'' | h'' | h'' <;>
        subst h <;> subst h' <;> subst h'' <;> decide

theorem mem_map_prop (f : Lane → Lane) (P : Lane → Prop)
    (h : ∀ x, fourState x → P (f x)) :
    ∀ (a : List Lane), fourStateT a → ∀ l ∈ a.map f, P l := by
  intro a ha l hl
  rcases List.mem_map.1 hl with ⟨x, hx, rfl⟩
  exact h x (ha x hx)

theorem mem_tForce_prop (P : Lane → Prop)
    (h : ∀ x y z, fourState x → fourState y → fourState z →
      P (inject_fault_lane x y z)) :
    ∀ (t e x : List Lane), fourStateT t → fourStateT e → fourStateT x →
      ∀ l ∈ tForce t e x, P l := by
  intro t
  induction t with
  | nil => intro e x _ _ _ l hl; simp [tForce] at hl
  | cons a as ih =>
    intro e x ht he hx l hl
    cases e with
    | nil => simp [tForce] at hl
    | cons b bs =>
      cases x with
      | nil => simp [tForce] at hl
      | cons c cs =>
        simp only [tForce, List.mem_cons] at hl
        rcases hl with h1 | h2
        · subst h1
          exact h a b c (ht a (by simp)) (he b (by simp)) (hx c (by simp))
        · exact ih bs cs (fun z hz => ht z (by simp [hz]))
            (fun z hz => he z (by simp [hz])) (fun z hz => hx z (by simp [hz])) l h2

/-- C5: every lane produced by the 4-state kernels (AND, OR, XOR, NOT,
dff_update, inject_fault) on 4-state inputs is one of the four encodings
(V,S) ∈ {(0,1),(1,1),(0,0),(1,0)}; moreover the combinational gate
kernels never produce Z = (1,0) — an undefined gate result is always
encoded as X = (0,0). -/
theorem c5_four_state_closure (a b d rst t en vl : List Lane)
    (ha : fourStateT a) (hb : fourStateT b) (hd : fourStateT d)
    (hrst : fourStateT rst) (ht : fourStateT t) (hen : fourStateT en)
    (hvl : fourStateT vl) :
    (∀ l ∈ tAnd a b, fourState l ∧ l ≠ laneZ) ∧
    (∀ l ∈ tOr a b, fourState l ∧ l ≠ laneZ) ∧
    (∀ l ∈ tXor a b, fourState l ∧ l ≠ laneZ) ∧
    (∀ l ∈ tNot a, fourState l ∧ l ≠ laneZ) ∧
    (∀ l ∈ tDff d rst, fourState l) ∧
    (∀ l ∈ tForce t en vl, fourState l) :=
  ⟨mem_zipWith_prop _ _ logic_and_lane_closure a b ha hb,
   mem_zipWith_prop _ _ logic_or_lane_closure a b ha hb,
   mem_zipWith_prop _ _ logic_xor_lane_closure a b ha hb,
   mem_map_prop _ _ logic_not_lane_closure a ha,
   mem_zipWith_prop _ _ dff_update_lane_closure d rst hd hrst,
   mem_tForce_prop _ (fun x y z hx hy hz => (inject_fault_lane_closure x y z hx hy hz).1)
     t en vl ht hen hvl⟩

/-- Witness for C5 on concrete 4-state tensors covering all four states. -/
theorem c5_witness :
    (∀ l ∈ tAnd [lane0, lane1, laneX, laneZ] [laneZ, laneX, lane1, lane0],
      fourState l ∧ l ≠ laneZ) ∧
    (∀ l ∈ tForce [laneX, laneZ] [lane1, lane0] [lane1, lane1], fourState l) := by
  have h := c5_four_state_closure
    [lane0, lane1, laneX, laneZ] [laneZ, laneX, lane1, lane0]
    [lane1] [laneX] [laneX, laneZ] [lane1, lane0] [lane1, lane1]
    (by decide) (by decide) (by decide) (by decide) (by decide) (by decide) (by decide)
  exact ⟨h.1, h.2.2.2.2.2⟩

/-- C10: constructing a LogicTensor on the CPU backend from a batch size
alone yields a tensor every lane of which reads as X (V=0, S=0):
`alloc_logic` returns zero-filled buffers, so the fresh tensor is
deterministic and entirely unknown-valued. -/
theorem c10_fresh_tensor_all_x (n : Nat) (hn : 0 < n) :
    ∃ t, logicTensor_from_batch n = Except.ok t ∧
      t.batch_size = n ∧ t.v_data.length = n ∧ t.s_data.length = n ∧
      ∀ i, i < n → t.v_data.getD i 1 = 0 ∧ t.s_data.getD i 1 = 0 := by
  refine ⟨⟨n, List.replicate n 0, List.replicate n 0⟩, ?_, rfl, by simp, by simp, ?_⟩
  · rw [logicTensor_from_batch]
    simp [alloc_logic, Nat.not_le.2 hn]
  · intro i hi
    constructor <;>
      simp [List.getD, List.getElem?_replicate, hi]

/-- Witness for C10 at batch size 4. -/
theorem c10_witness :
    0 < 4 ∧ ∃ t, logicTensor_from_batch 4 = Except.ok t ∧
      t.batch_size = 4 ∧ t.v_data.length = 4 ∧ t.s_data.length = 4 ∧
      ∀ i, i < 4 → t.v_data.getD i 1 = 0 ∧ t.s_data.getD i 1 = 0 :=
  ⟨by decide, c10_fresh_tensor_all_x 4 (by decide)⟩

theorem campInv_mk (n : Nat) : campInv (mkFaultCampaign n) n := by
  refine ⟨rfl, rfl, ?_⟩
  simp [mkFaultCampaign]

theorem campInv_step (c : FaultCampaignS) (n : Nat) (p : String × Nat)
    (h : campInv c n) :
    campInv (match add_fault c p.1 p.2 with
      | Except.ok r => r.2
      | Except.error _ => c) n := by
  obtain ⟨h1, h2, h3⟩ := h
  rw [add_fault]
  by_cases hc : c.batch_size ≤ c.next_free_index
  · simp only [hc, if_pos]
    exact ⟨h1, h2, h3⟩
  · simp only [hc, if_neg, not_false_iff]
    refine ⟨h1, by simp [h2], ?_⟩
    simp only [List.map_append, List.length_append, List.map_cons, List.map_nil,
      List.length_cons, List.length_nil, h3, h2]
    rw [List.range'_1_concat]
    simp [Nat.add_comm]

theorem campInv_reach (l : List (String × Nat)) :
    ∀ (c : FaultCampaignS) (n : Nat), campInv c n → campInv (addAttempts c l) n := by
  induction l with
  | nil => intro c n h; exact h
  | cons p l ih =>
    intro c n h
    exact ih _ n (campInv_step c n p h)

/-- C7: in any campaign state reachable from `FaultCampaign(batch_size=n)`
by attempted `add_fault` calls, the assigned lane indices so far are
exactly 1, 2, 3, … in order (lane 0 is never assigned); the next call
raises exactly when all n−1 non-gold lanes are already claimed, a failing
call leaves the campaign unchanged, and a successful call returns the
next index in the sequence. -/
theorem c7_add_fault_lane_allocation (n : Nat) (l : List (String × Nat))
    (c : FaultCampaignS) (hc : c = addAttempts (mkFaultCampaign n) l)
    (name : String) (ftype : Nat) :
    (c.fault_list.map (fun f => f.index) = List.range' 1 c.fault_list.length) ∧
    ((∃ e, add_fault c name ftype = Except.error e) ↔ n - 1 ≤ c.fault_list.length) ∧
    ((∃ e, add_fault c name ftype = Except.error e) →
      addAttempts c [(name, ftype)] = c) ∧
    (∀ i c', add_fault c name ftype = Except.ok (i, c') →
      i = c.fault_list.length + 1 ∧
      c'.fault_list = c.fault_list ++ [⟨name, ftype, i⟩] ∧
      c'.next_free_index = i + 1 ∧ c'.batch_size = n) := by
  have hinv : campInv c n := by
    rw [hc]; exact campInv_reach l _ n (campInv_mk n)
  obtain ⟨h1, h2, h3⟩ := hinv
  refine ⟨h3, ?_, ?_, ?_⟩
  · constructor
    · intro ⟨e, he⟩
      rw [add_fault] at he
      by_cases hcond : c.batch_size ≤ c.next_free_index
      · rw [h1, h2] at hcond; omega
      · simp [hcond] at he
    · intro hlen
      refine ⟨"Batch size too small for fault list!", ?_⟩
      rw [add_fault, if_pos (by rw [h1, h2]; omega)]
  · intro ⟨e, he⟩
    simp [addAttempts, he]
  · intro i c' hok
    rw [add_fault] at hok
    by_cases hcond : c.batch_size ≤ c.next_free_index
    · simp [hcond] at hok
    · rw [if_neg hcond] at hok
      obtain ⟨hi, hc'⟩ := Prod.mk.injEq .. ▸ (Except.ok.injEq .. ▸ hok)
      subst hi
      refine ⟨h2, ?_, ?_, ?_⟩
      · rw [← hc', h2]
      · rw [← hc', h2]
      · rw [← hc', h1]

/-- Witness for C7: from a fresh batch-3 campaign, two adds return lanes
1 and 2 and the third raises (both non-gold lanes claimed). -/
theorem c7_witness :
    (addAttempts (mkFaultCampaign 3) [("a", 0), ("b", 1)]).fault_list.map
        (fun f => f.index) = [1, 2] ∧
    (∃ e, add_fault (addAttempts (mkFaultCampaign 3) [("a", 0), ("b", 1)])
        "z" 0 = Except.error e) := by
  have h := c7_add_fault_lane_allocation 3 [("a", 0), ("b", 1)]
    (addAttempts (mkFaultCampaign 3) [("a", 0), ("b", 1)]) rfl "z" 0
  constructor
  · rw [h.1]; decide
  · exact h.2.1.2 (by decide)

/-- C6 (code bug): on a concrete campaign with one fault registered on
wire_A, `get_masks("wire_A")` raises TypeError instead of returning the
(enable, value) tensor pair the spec describes, because the constructor
keywords `data_v`/`data_s` do not exist on `LogicTensor.__init__`. -/
theorem c6_get_masks_type_error :
    get_masks (addAttempts (mkFaultCampaign 3) [("wire_A", 1)]) "wire_A" =
      Except.error "TypeError: unexpected keyword argument data_v" := by
  rfl

/-- C8 counterexample: a chain of one flip-flop with batch size 2 accepts
a pattern with 3 rows — no shape-mismatch error is raised even though the
row count differs from the batch size, and the register is silently left
with a 3-lane V buffer next to a 2-lane S buffer. -/
theorem c8_counterexample_row_count_unchecked :
    scan_load [⟨2, [0, 0], [1, 1]⟩] [[5], [6], [7]] none =
      Except.ok [⟨2, [5, 6, 7], [1, 1]⟩] := by
  rfl

/-- C8 amended: `scan_load` raises a shape-mismatch error exactly when the
pattern width differs from the chain length K — the row count is never
checked against the batch size.  When the width matches and the pattern
has N = batch-size rows, it writes column j of the pattern into
flip-flop j's Q for every j, with S = 1 on all N lanes when no S matrix
is supplied. -/
theorem c8_amended_scan_load (chain : List DFlipFlopS)
    (pv : List (List Nat)) (K N : Nat)
    (hK : chain.length = K) (hrect : ∀ row ∈ pv, row.length = K)
    (hN : pv.length = N) (hNpos : 0 < N)
    (hbatch : ∀ reg ∈ chain, reg.batch_size = N) :
    (∀ pv' px', (∃ e, scan_load chain pv' px' = Except.error e) ↔
      (pv'.headD []).length ≠ K) ∧
    ∃ out, scan_load chain pv none = Except.ok out ∧ out.length = K ∧
      ∀ j, j < K → out.getD j ⟨0, [], []⟩ =
        ⟨N, pv.map (fun row => row.getD j 0), List.replicate N 1⟩ := by
  constructor
  · intro pv' px'
    rw [scan_load]
    by_cases hw : (pv'.headD []).length ≠ chain.length
    · rw [if_pos hw, hK] at *
      exact ⟨fun _ => by rw [← hK]; exact hw, fun _ => ⟨_, rfl⟩⟩
    · rw [if_neg hw]
      constructor
      · intro ⟨e, he⟩; exact absurd he (by simp)
      · intro hne; exact absurd (hK ▸ hne) hw
  · have hwidth : (pv.headD []).length = K := by
      cases pv with
      | nil => simp at hN; omega
      | cons r rs => exact hrect r (by simp)
    refine ⟨chain.enum.map (fun p : Nat × DFlipFlopS =>
      (⟨p.2.batch_size, pv.map (fun row => row.getD p.1 0),
        List.replicate p.2.batch_size 1⟩ : DFlipFlopS)), ?_, ?_, ?_⟩
    · rw [scan_load, if_neg (by rw [hwidth, hK]; simp)]
    · simp [hK]
    · intro j hj
      have hj' : j < (chain.enum.map (fun p : Nat × DFlipFlopS =>
          (⟨p.2.batch_size,
            pv.map (fun row => row.getD p.1 0),
            List.replicate p.2.batch_size 1⟩ : DFlipFlopS))).length := by
        simp [hK]; omega
      rw [List.getD_eq_getElem _ _ hj']
      rw [List.getElem_map]
      have hje : j < chain.enum.length := by simpa [hK] using hj
      have hjc : j < chain.length := by rw [hK]; exact hj
      have henum : chain.enum[j] = (j, chain[j]) := List.getElem_enum chain j hje
      rw [henum]
      have hb : chain[j].batch_size = N := hbatch _ (List.getElem_mem hjc)
      simp [hb]

/-- Witness for C8 amended, the spec's scenario S6: chain of 3 flip-flops,
batch 2, pattern [[0,1,0],[1,0,1]]; after scan_load FF0.Q = [0,1],
FF1.Q = [1,0], FF2.Q = [0,1], all lanes defined. -/
theorem c8_witness :
    ∃ out, scan_load [⟨2, [0, 0], [1, 1]⟩, ⟨2, [0, 0], [1, 1]⟩, ⟨2, [0, 0], [1, 1]⟩]
        [[0, 1, 0], [1, 0, 1]] none = Except.ok out ∧
      out.getD 0 ⟨0, [], []⟩ = ⟨2, [0, 1], [1, 1]⟩ ∧
      out.getD 1 ⟨0, [], []⟩ = ⟨2, [1, 0], [1, 1]⟩ ∧
      out.getD 2 ⟨0, [], []⟩ = ⟨2, [0, 1], [1, 1]⟩ := by
  have h := c8_amended_scan_load
    [⟨2, [0, 0], [1, 1]⟩, ⟨2, [0, 0], [1, 1]⟩, ⟨2, [0, 0], [1, 1]⟩]
    [[0, 1, 0], [1, 0, 1]] 3 2 (by decide) (by decide) (by decide) (by decide)
    (by decide)
  obtain ⟨-, out, hok, -, hcols⟩ := h
  refine ⟨out, hok, ?_, ?_, ?_⟩
  · rw [hcols 0 (by decide)]; decide
  · rw [hcols 1 (by decide)]; decide
  · rw [hcols 2 (by decide)]; decide

/-! ## C3: two-phase flip-flop publication -/

theorem publishQ_ne (updates : List (String × List Lane)) (m : SigMap) (k : String)
    (h : ∀ p ∈ updates, p.1 ≠ k) : publishQ updates m k = m k := by
  induction updates generalizing m with
  | nil => rfl
  | cons x rest ih =>
    show publishQ rest (updateSig m x.1 x.2) k = m k
    rw [ih (updateSig m x.1 x.2) (fun p hp => h p (by simp [hp]))]
    rw [updateSig]
    exact if_neg (fun hk => h x (by simp) (by rw [hk]))

theorem publishQ_get (updates : List (String × List Lane)) (m : SigMap)
    (p : String × List Lane) (hmem : p ∈ updates)
    (hnd : (updates.map Prod.fst).Nodup) : publishQ updates m p.1 = p.2 := by
  induction updates generalizing m with
  | nil => simp at hmem
  | cons x rest ih =>
    simp only [List.map_cons, List.nodup_cons] at hnd
    rcases List.mem_cons.1 hmem with rfl | hrest
    · show publishQ rest (updateSig m p.1 p.2) p.1 = p.2
      rw [publishQ_ne rest _ p.1 ?hne]
      · rw [updateSig]
        exact if_pos rfl
      case hne =>
        intro q hq hqe
        exact hnd.1 (hqe ▸ List.mem_map_of_mem Prod.fst hq)
    · show publishQ rest (updateSig m x.1 x.2) p.1 = p.2
      exact ih (updateSig m x.1 x.2) hrest hnd.2

/-- C3: `Chip.step` publishes flip-flop state two-phase.  First conjunct:
for every netlist whose DFF output names are distinct, the post-step
value of each DFF's Q equals its Q_next as computed from the signal map
at the end of the combinational phase — the pre-edge instant — no matter
where the DFF sits in the declaration order.  Second conjunct: for the
cross-coupled pair q1 ← DFF(q2), q2 ← DFF(q1) started at (q1,q2)=(0,1)
with reset inactive, one step yields (1,0) and a second step (0,1). -/
theorem c3_two_phase_dff_publication :
    (∀ (insts : List Inst) (m : SigMap) (g : Inst),
      ((dffsOf insts).map (fun g => g.ports.headD "")).Nodup →
      g ∈ dffsOf insts →
      stepChip insts m (g.ports.headD "") = dffNext g (combPhase insts m)) ∧
    (stepChip crossInsts crossM0 "q1" = [lane1] ∧
     stepChip crossInsts crossM0 "q2" = [lane0] ∧
     stepChip crossInsts (stepChip crossInsts crossM0) "q1" = [lane0] ∧
     stepChip crossInsts (stepChip crossInsts crossM0) "q2" = [lane1]) := by
  constructor
  · intro insts m g hnd hg
    rw [stepChip]
    have hmem : (g.ports.headD "", dffNext g (combPhase insts m)) ∈
        (dffsOf insts).map (fun g => (g.ports.headD "", dffNext g (combPhase insts m))) :=
      List.mem_map_of_mem _ hg
    have hnd' : (((dffsOf insts).map
        (fun g => (g.ports.headD "", dffNext g (combPhase insts m)))).map Prod.fst).Nodup := by
      rw [List.map_map]
      exact hnd
    exact publishQ_get _ _ _ hmem hnd'
  · exact ⟨by decide, by decide, by decide, by decide⟩

/-- Witness for C3's quantified conjunct at the cross-coupled pair: the
published q1 equals ff1's Q_next computed from the pre-edge map. -/
theorem c3_witness :
    stepChip crossInsts crossM0
        ((⟨"dff", "ff1", ["q1", "q2", "clk", "rst"]⟩ : Inst).ports.headD "") =
      dffNext ⟨"dff", "ff1", ["q1", "q2", "clk", "rst"]⟩ (combPhase crossInsts crossM0) :=
  c3_two_phase_dff_publication.1 crossInsts crossM0 _ (by decide) (by decide)

/-! ## C4: combinational cycles at Chip construction -/

/-- C4 counterexample: on the two-gate cycle y = buf(z), z = buf(y) the
Chip constructor does not fail — `_topological_sort` reaches the
commented-out raise and `pass`es (compiler.py lines 115-119) — and the
produced Chip has an empty evaluation order: both gates were silently
dropped.  This contradicts the claim that construction fails with an
error naming a cycle signal and that no Chip object is produced. -/
theorem c4_counterexample_cycle_not_rejected :
    (mkChip "c" [] [] ["y", "z"] cyclicInsts 1).sorted_gates = [] ∧
    (mkChip "c" [] [] ["y", "z"] cyclicInsts 1).dffs = [] ∧
    (mkChip "c" [] [] ["y", "z"] cyclicInsts 1).instances = cyclicInsts := by
  exact ⟨by decide, by decide, by decide⟩

/-- C4 amended: Chip construction never fails on a combinational cycle;
the gates of the cycle are silently omitted from the compiled evaluation
order while the acyclic remainder is sorted as usual.  Demonstrated on
the cycle plus one independent gate. -/
theorem c4_amended_cycle_gates_dropped :
    (mkChip "c" [] [] [] cyclicPlusInsts 1).sorted_gates =
      [⟨"buf", "g2", ["w", "a"]⟩] ∧
    (mkChip "c" [] [] [] cyclicPlusInsts 1).instances = cyclicPlusInsts := by
  exact ⟨by decide, by decide⟩

theorem combValue_nil (gtype : String) : combValue gtype [] = none := by
  unfold combValue
  split <;> simp_all

theorem combValue_cons_mem (gtype : String) (x : List Lane) (xs : List (List Lane))
    (h : gtype ∈ validCombTypes) : ∃ v, combValue gtype (x :: xs) = some v := by
  simp only [validCombTypes, List.mem_cons, List.mem_singleton] at h
  rcases h with rfl | rfl | rfl | rfl | rfl | rfl | rfl | rfl | h
  · exact ⟨_, rfl⟩
  · exact ⟨_, rfl⟩
  · exact ⟨_, rfl⟩
  · exact ⟨_, rfl⟩
  · exact ⟨_, rfl⟩
  · exact ⟨_, rfl⟩
  · exact ⟨_, rfl⟩
  · exact ⟨_, rfl⟩
  · simp at h

theorem combValue_cons_not_mem (gtype : String) (x : List Lane) (xs : List (List Lane))
    (h : gtype ∉ validCombTypes) : combValue gtype (x :: xs) = none := by
  unfold combValue
  split <;> first
    | rfl
    | exact absurd (by simp [validCombTypes]) h

theorem writesOut_eq_cons2 (g : Inst) (out i : String) (rest : List String)
    (hp : g.ports = out :: i :: rest) :
    writesOut g = if g.gtype ∈ validCombTypes then some out else none := by
  unfold writesOut
  rw [hp]

theorem evalComb_no_write (m : SigMap) (g : Inst) (h : writesOut g = none) :
    evalComb m g = m := by
  rcases hp : g.ports with _ | ⟨out, ins⟩
  · unfold evalComb; rw [hp]
  · rcases hi : ins with _ | ⟨i, rest⟩
    · unfold evalComb
      rw [hp, hi]
      simp [combValue_nil]
    · have hv : g.gtype ∉ validCombTypes := by
        intro hv
        rw [writesOut_eq_cons2 g out i rest (by rw [hp, hi]), if_pos hv] at h
        exact Option.noConfusion h
      unfold evalComb
      rw [hp, hi]
      simp [combValue_cons_not_mem _ _ _ hv]

theorem writesOut_parts (g : Inst) (o : String) (h : writesOut g = some o) :
    ∃ i rest, g.ports = o :: i :: rest ∧ g.gtype ∈ validCombTypes := by
  rcases hp : g.ports with _ | ⟨out, ins⟩
  · unfold writesOut at h; rw [hp] at h; exact Option.noConfusion h
  · rcases hi : ins with _ | ⟨i, rest⟩
    · unfold writesOut at h; rw [hp, hi] at h; exact Option.noConfusion h
    · rw [writesOut_eq_cons2 g out i rest (by rw [hp, hi])] at h
      by_cases hv : g.gtype ∈ validCombTypes
      · rw [if_pos hv] at h
        have ho : out = o := Option.some.inj h
        subst ho
        exact ⟨i, rest, rfl, hv⟩
      · rw [if_neg hv] at h
        exact Option.noConfusion h

theorem evalComb_eq_cons (m : SigMap) (g : Inst) (out : String) (ins : List String)
    (hp : g.ports = out :: ins) :
    evalComb m g =
      match combValue g.gtype (ins.map m) with
      | some res => updateSig m out res
      | none => m := by
  unfold evalComb
  rw [hp]

theorem evalComb_write_ne (m : SigMap) (g : Inst) (o : String)
    (h : writesOut g = some o) (s : String) (hs : s ≠ o) :
    evalComb m g s = m s := by
  obtain ⟨i, rest, hp, hv⟩ := writesOut_parts g o h
  rw [evalComb_eq_cons m g o (i :: rest) hp]
  cases hcv : combValue g.gtype (List.map m (i :: rest)) with
  | none => rfl
  | some v =>
    show updateSig m o v s = m s
    rw [updateSig]
    exact if_neg hs

theorem evalComb_write_congr (m m' : SigMap) (g : Inst) (o : String)
    (h : writesOut g = some o) (hag : ∀ t ∈ inNames g, m t = m' t) :
    evalComb m g o = evalComb m' g o := by
  obtain ⟨i, rest, hp, hv⟩ := writesOut_parts g o h
  have htail : ∀ t ∈ i :: rest, m t = m' t := by
    intro t ht
    exact hag t (by rw [inNames, hp]; exact ht)
  have hmap : List.map m (i :: rest) = List.map m' (i :: rest) :=
    List.map_congr_left htail
  rw [evalComb_eq_cons m g o (i :: rest) hp, evalComb_eq_cons m' g o (i :: rest) hp, hmap]
  cases hcv : combValue g.gtype (List.map m' (i :: rest)) with
  | none =>
    obtain ⟨v, hvv⟩ := combValue_cons_mem g.gtype (m' i) (rest.map m') hv
    rw [List.map_cons] at hcv
    rw [hvv] at hcv
    exact Option.noConfusion hcv
  | some v =>
    show updateSig m o v o = updateSig m' o v o
    simp [updateSig]

theorem evalList_take_succ (L : List Inst) (k : Nat) (h : k < L.length) (m : SigMap) :
    evalList (L.take (k + 1)) m = evalComb (evalList (L.take k) m) (L.getD k noInst) := by
  induction L generalizing k m with
  | nil => simp at h
  | cons g gs ih =>
    cases k with
    | zero => rfl
    | succ j =>
      show evalList (gs.take (j + 1)) (evalComb m g) =
        evalComb (evalList (gs.take j) (evalComb m g)) (gs.getD j noInst)
      exact ih j (by simpa using h) (evalComb m g)

theorem evalList_unwritten (L : List Inst) (t : String)
    (h : ∀ g ∈ L, writesOut g ≠ some t) : ∀ m, evalList L m t = m t := by
  induction L with
  | nil => intro m; rfl
  | cons g gs ih =>
    intro m
    show evalList gs (evalComb m g) t = m t
    rw [ih (fun g' hg' => h g' (by simp [hg'])) (evalComb m g)]
    rcases hw : writesOut g with _ | o
    · rw [evalComb_no_write m g hw]
    · exact evalComb_write_ne m g o hw t (fun he => h g (by simp) (he ▸ hw))

theorem evalList_prefix_states (L : List Inst) (hH : orderedWrites L) (σ : SigMap) :
    ∀ k, k ≤ L.length → ∀ s,
      ((∃ q, q < k ∧ writesOut (L.getD q noInst) = some s) →
        evalList (L.take k) (evalList L σ) s = evalList (L.take k) σ s) ∧
      ((¬ ∃ q, q < k ∧ writesOut (L.getD q noInst) = some s) →
        evalList (L.take k) (evalList L σ) s = evalList L σ s) := by
  intro k
  induction k with
  | zero =>
    intro _ s
    constructor
    · intro ⟨q, hq, _⟩
      exact absurd hq (Nat.not_lt_zero q)
    · intro _
      rfl
  | succ k ih =>
    intro hk s
    have hk' : k < L.length := Nat.lt_of_succ_le hk
    have ihh := ih (Nat.le_of_lt hk')
    rcases hw : writesOut (L.getD k noInst) with _ | o
    · constructor
      · intro ⟨q, hq, hqs⟩
        have hq' : q < k := by
          rcases Nat.lt_succ_iff_lt_or_eq.1 hq with h | rfl
          · exact h
          · rw [hw] at hqs; exact Option.noConfusion hqs
        rw [evalList_take_succ L k hk' (evalList L σ), evalList_take_succ L k hk' σ,
          evalComb_no_write _ _ hw, evalComb_no_write _ _ hw]
        exact (ihh s).1 ⟨q, hq', hqs⟩
      · intro hne
        rw [evalList_take_succ L k hk' (evalList L σ), evalComb_no_write _ _ hw]
        exact (ihh s).2 (fun ⟨q, hq, hqs⟩ => hne ⟨q, Nat.lt_succ_of_lt hq, hqs⟩)
    · by_cases hso : s = o
      · subst hso
        constructor
        · intro _
          rw [evalList_take_succ L k hk' (evalList L σ), evalList_take_succ L k hk' σ]
          apply evalComb_write_congr _ _ _ _ hw
          intro t ht
          by_cases hwt : ∃ q, q < k ∧ writesOut (L.getD q noInst) = some t
          · exact (ihh t).1 hwt
          · have hnall : ∀ j, j < L.length → writesOut (L.getD j noInst) ≠ some t := by
              intro j hj hjs
              exact hwt (hH k hk' t ht ⟨j, hj, hjs⟩)
            have hmem : ∀ g' ∈ L, writesOut g' ≠ some t := by
              intro g' hg' hgt
              obtain ⟨j, hj, hjg⟩ := List.mem_iff_getElem.1 hg'
              refine hnall j hj ?_
              rw [List.getD_eq_getElem L noInst hj, hjg]
              exact hgt
            have h1 : evalList L σ t = σ t := evalList_unwritten L t hmem σ
            have h2 : evalList (L.take k) σ t = σ t :=
              evalList_unwritten (L.take k) t
                (fun g' hg' => hmem g' (List.take_subset k L hg')) σ
            have h3 := (ihh t).2 hwt
            rw [h3, h1, h2]
        · intro hne
          exact absurd ⟨k, Nat.lt_succ_self k, hw⟩ hne
      · constructor
        · intro ⟨q, hq, hqs⟩
          have hq' : q < k := by
            rcases Nat.lt_succ_iff_lt_or_eq.1 hq with h | rfl
            · exact h
            · rw [hw] at hqs
              exact absurd (Option.some.inj hqs).symm hso
          rw [evalList_take_succ L k hk' (evalList L σ), evalList_take_succ L k hk' σ,
            evalComb_write_ne _ _ _ hw s hso, evalComb_write_ne _ _ _ hw s hso]
          exact (ihh s).1 ⟨q, hq', hqs⟩
        · intro hne
          rw [evalList_take_succ L k hk' (evalList L σ), evalComb_write_ne _ _ _ hw s hso]
          exact (ihh s).2 (fun ⟨q, hq, hqs⟩ => hne ⟨q, Nat.lt_succ_of_lt hq, hqs⟩)

/-- Running a write-ordered gate list twice equals running it once. -/
theorem evalList_idem (L : List Inst) (hH : orderedWrites L) (σ : SigMap) :
    evalList L (evalList L σ) = evalList L σ := by
  funext s
  have h := evalList_prefix_states L hH σ L.length (Nat.le_refl _) s
  rw [List.take_length] at h
  by_cases hw : ∃ q, q < L.length ∧ writesOut (L.getD q noInst) = some s
  · exact h.1 hw
  · exact h.2 hw

/-! ### The relaxation fold of one Kahn iteration -/

theorem relax_snd (ts : List Nat) :
    ∀ (q : List Nat) (d : Nat → Int),
      (ts.foldl kahnRelax (q, d)).2 = fun v => d v - (ts.count v : Int) := by
  induction ts with
  | nil =>
    intro q d
    funext v
    simp
  | cons x ts ih =>
    intro q d
    show (ts.foldl kahnRelax (kahnRelax (q, d) x)).2 = _
    rw [kahnRelax]
    rw [ih]
    funext v
    by_cases hv : v = x
    · subst hv
      simp [List.count_cons_self]
      ring
    · simp only [if_neg hv]
      rw [List.count_cons_of_ne hv]

theorem kahnRelax_eq (q : List Nat) (d : Nat → Int) (x : Nat) :
    kahnRelax (q, d) x =
      (if d x - 1 = 0 then q ++ [x] else q,
       fun y => if y = x then d y - 1 else d y) := by
  rw [kahnRelax]
  simp

theorem relax_fst_subset (ts : List Nat) :
    ∀ (q : List Nat) (d : Nat → Int) (w : Nat),
      w ∈ (ts.foldl kahnRelax (q, d)).1 → w ∈ q ∨ w ∈ ts := by
  induction ts with
  | nil =>
    intro q d w hw
    exact Or.inl hw
  | cons x ts ih =>
    intro q d w hw
    rw [List.foldl_cons, kahnRelax_eq] at hw
    by_cases hc : d x - 1 = 0
    · rw [if_pos hc] at hw
      rcases ih _ _ w hw with h | h
      · rcases List.mem_append.1 h with h1 | h1
        · exact Or.inl h1
        · simp at h1
          exact Or.inr (by simp [h1])
      · exact Or.inr (List.mem_cons_of_mem x h)
    · rw [if_neg hc] at hw
      rcases ih _ _ w hw with h | h
      · exact Or.inl h
      · exact Or.inr (List.mem_cons_of_mem x h)

theorem relax_hnn_step (ts : List Nat) (x : Nat) (d : Nat → Int)
    (hnn : ∀ v, 0 ≤ d v - ((x :: ts).count v : Int)) :
    ∀ v, 0 ≤ (fun y => if y = x then d y - 1 else d y) v - (ts.count v : Int) := by
  intro v
  by_cases hv : v = x
  · subst hv
    have h := hnn v
    rw [List.count_cons_self] at h
    push_cast at h ⊢
    simp only [if_pos rfl]
    omega
  · have h := hnn v
    rw [List.count_cons_of_ne hv] at h
    simp only [if_neg hv]
    exact h

theorem relax_fst_final_zero (ts : List Nat) :
    ∀ (q : List Nat) (d : Nat → Int),
      (∀ v, 0 ≤ d v - (ts.count v : Int)) →
      ∀ w ∈ (ts.foldl kahnRelax (q, d)).1,
        w ∈ q ∨ (w ∈ ts ∧ d w - (ts.count w : Int) = 0) := by
  induction ts with
  | nil =>
    intro q d _ w hw
    exact Or.inl hw
  | cons x ts ih =>
    intro q d hnn w hw
    rw [List.foldl_cons, kahnRelax_eq] at hw
    have hnn1 := relax_hnn_step ts x d hnn
    by_cases hc : d x - 1 = 0
    · rw [if_pos hc] at hw
      rcases ih _ _ hnn1 w hw with h | h
      · rcases List.mem_append.1 h with h1 | h1
        · exact Or.inl h1
        · simp only [List.mem_singleton] at h1
          subst h1
          refine Or.inr ⟨by simp, ?_⟩
          have h2 := hnn w
          rw [List.count_cons_self] at h2 ⊢
          push_cast at h2 ⊢
          omega
      · obtain ⟨hin, hval⟩ := h
        refine Or.inr ⟨List.mem_cons_of_mem x hin, ?_⟩
        by_cases hv : w = x
        · subst hv
          rw [List.count_cons_self]
          simp only [if_pos rfl] at hval
          push_cast at hval ⊢
          omega
        · rw [List.count_cons_of_ne hv]
          simp only [if_neg hv] at hval
          exact hval
    · rw [if_neg hc] at hw
      rcases ih _ _ hnn1 w hw with h | h
      · exact Or.inl h
      · obtain ⟨hin, hval⟩ := h
        refine Or.inr ⟨List.mem_cons_of_mem x hin, ?_⟩
        by_cases hv : w = x
        · subst hv
          rw [List.count_cons_self]
          simp only [if_pos rfl] at hval
          push_cast at hval ⊢
          omega
        · rw [List.count_cons_of_ne hv]
          simp only [if_neg hv] at hval
          exact hval

theorem relax_fst_nodup (ts : List Nat) :
    ∀ (q : List Nat) (d : Nat → Int),
      q.Nodup → (∀ w ∈ q, w ∉ ts) →
      (∀ v, 0 ≤ d v - (ts.count v : Int)) →
      (ts.foldl kahnRelax (q, d)).1.Nodup := by
  induction ts with
  | nil =>
    intro q d hq _ _
    exact hq
  | cons x ts ih =>
    intro q d hq hdisj hnn
    rw [List.foldl_cons, kahnRelax_eq]
    have hnn1 := relax_hnn_step ts x d hnn
    by_cases hc : d x - 1 = 0
    · rw [if_pos hc]
      have hxq : x ∉ q := fun hxq => hdisj x hxq (by simp)
      have hxts : x ∉ ts := by
        rw [← List.count_eq_zero]
        have h2 := hnn x
        rw [List.count_cons_self] at h2
        push_cast at h2
        omega
      refine ih (q ++ [x]) _ ?_ ?_ hnn1
      · rw [List.nodup_append]
        exact ⟨hq, List.nodup_singleton x, fun a ha ha' => hxq ((List.mem_singleton.1 ha') ▸ ha)⟩
      · intro w hw
        rcases List.mem_append.1 hw with h1 | h1
        · exact fun hin => hdisj w h1 (List.mem_cons_of_mem x hin)
        · simp only [List.mem_singleton] at h1
          subst h1
          exact hxts
    · rw [if_neg hc]
      exact ih q _ hq (fun w hw hin => hdisj w hw (List.mem_cons_of_mem x hin)) hnn1

theorem adjOf_eq_adjFromE (comb : List Inst) : adjOf comb = adjFromE (edgesOf comb) := rfl

theorem edgeCount_nonneg (E : List (Nat × Nat)) (v : Nat) (done : List Nat) :
    0 ≤ edgeCount E v done :=
  Int.natCast_nonneg _

theorem edgeCount_zero (E : List (Nat × Nat)) (v : Nat) (done : List Nat)
    (h : edgeCount E v done = 0) : ∀ u, (u, v) ∈ E → u ∈ done := by
  intro u hu
  unfold edgeCount at h
  rw [Int.natCast_eq_zero] at h
  have h2 := (List.countP_eq_zero.1 h) (u, v) hu
  simp at h2
  exact h2

theorem mem_adjFromE (E : List (Nat × Nat)) (u w : Nat) :
    w ∈ adjFromE E u ↔ (u, w) ∈ E := by
  unfold adjFromE
  simp only [List.mem_map, List.mem_filter]
  constructor
  · intro ⟨e, ⟨he, heu⟩, hew⟩
    have h1 : e.1 = u := by simpa using heu
    have : e = (u, w) := by
      obtain ⟨a, b⟩ := e
      simp at h1 hew
      rw [h1, hew]
    exact this ▸ he
  · intro h
    exact ⟨(u, w), ⟨h, by simp⟩, rfl⟩

theorem adj_count_eq (E : List (Nat × Nat)) (u v : Nat) :
    (adjFromE E u).count v = E.countP (fun e => decide (e.1 = u ∧ e.2 = v)) := by
  induction E with
  | nil => rfl
  | cons e E ih =>
    simp only [adjFromE] at ih ⊢
    rw [List.filter_cons, List.countP_cons]
    by_cases h1 : e.1 = u
    · rw [if_pos (by simp [h1])]
      rw [List.map_cons, List.count_cons]
      by_cases h2 : e.2 = v
      · simp [h1, h2, ih]
      · simp [h1, h2, ih]
    · rw [if_neg (by simp [h1])]
      simp [h1, ih]

theorem edgeCount_point (v u : Nat) (done : List Nat) (hu : u ∉ done)
    (e : Nat × Nat) :
    (if e.2 = v ∧ e.1 ∉ done then (1 : Int) else 0) =
      (if e.2 = v ∧ e.1 ∉ done ++ [u] then (1 : Int) else 0) +
      (if e.1 = u ∧ e.2 = v then (1 : Int) else 0) := by
  by_cases h2 : e.2 = v
  · by_cases h1 : e.1 = u
    · rw [if_pos ⟨h2, h1 ▸ hu⟩, if_neg (fun h => h.2 (by simp [h1])), if_pos ⟨h1, h2⟩]
      norm_num
    · by_cases hid : e.1 ∈ done
      · rw [if_neg (fun h => h.2 hid), if_neg (fun h => h.2 (by simp [hid])),
          if_neg (fun h => h1 h.1)]
        norm_num
      · rw [if_pos ⟨h2, hid⟩, if_pos ⟨h2, by simp [hid, h1]⟩,
          if_neg (fun h => h1 h.1)]
        norm_num
  · rw [if_neg (fun h => h2 h.1), if_neg (fun h => h2 h.1),
      if_neg (fun h => h2 h.2)]
    norm_num

theorem edgeCount_split (E : List (Nat × Nat)) (v u : Nat) (done : List Nat)
    (hu : u ∉ done) :
    edgeCount E v done =
      edgeCount E v (done ++ [u]) +
        (E.countP (fun e => decide (e.1 = u ∧ e.2 = v)) : Int) := by
  unfold edgeCount
  induction E with
  | nil => simp
  | cons e E ih =>
    rw [List.countP_cons, List.countP_cons, List.countP_cons]
    push_cast at ih ⊢
    simp only [decide_eq_true_eq]
    have hpt := edgeCount_point v u done hu e
    linarith [ih, hpt]

/-! ### Generic getD utilities -/

theorem getD_mem_lt {α : Type} (a : List α) (i : Nat) (d : α) (h : i < a.length) :
    a.getD i d ∈ a := by
  rw [List.getD_eq_getElem a d h]
  exact List.getElem_mem h

theorem mem_getD_index {α : Type} (l : List α) (w d : α) (h : w ∈ l) :
    ∃ q, q < l.length ∧ l.getD q d = w := by
  obtain ⟨i, hi, he⟩ := List.mem_iff_getElem.1 h
  exact ⟨i, hi, by rw [List.getD_eq_getElem _ _ hi]; exact he⟩

theorem getD_append_lt {α : Type} (l1 l2 : List α) (p : Nat) (d : α)
    (h : p < l1.length) : (l1 ++ l2).getD p d = l1.getD p d := by
  rw [List.getD_eq_getElem _ _ (by rw [List.length_append]; omega),
    List.getD_eq_getElem _ _ h]
  exact List.getElem_append_left h

theorem getD_concat_length {α : Type} (l : List α) (u d : α) :
    (l ++ [u]).getD l.length d = u := by
  rw [List.getD_eq_getElem _ _ (by simp)]
  exact List.getElem_concat_length l u l.length rfl _

/-- Members of a forward-closed pop list have all their edge sources in
the list. -/
theorem forward_closed (E : List (Nat × Nat)) (done : List Nat)
    (ha : ∀ p, p < done.length → ∀ u, (u, done.getD p 0) ∈ E →
      ∃ q, q < p ∧ done.getD q 0 = u) :
    ∀ y ∈ done, ∀ u, (u, y) ∈ E → u ∈ done := by
  intro y hy u hu
  obtain ⟨p, hp, he⟩ := mem_getD_index done y 0 hy
  obtain ⟨q, hq, he'⟩ := ha p hp u (he ▸ hu)
  exact he' ▸ getD_mem_lt done q 0 (Nat.lt_trans hq hp)

theorem kahnLoop_cons (adj : Nat → List Nat) (fuel : Nat) (u : Nat)
    (rest : List Nat) (indeg : Nat → Int) (done : List Nat) :
    kahnLoop adj (fuel + 1) (u :: rest) indeg done =
      kahnLoop adj fuel ((adj u).foldl kahnRelax (rest, indeg)).1
        ((adj u).foldl kahnRelax (rest, indeg)).2 (done ++ [u]) := rfl

theorem kahnLoop_mem (E : List (Nat × Nat)) (P : Nat → Prop)
    (hE : ∀ u v, (u, v) ∈ E → P v) :
    ∀ (fuel : Nat) (queue : List Nat) (indeg : Nat → Int) (done : List Nat),
      (∀ x ∈ queue, P x) → (∀ x ∈ done, P x) →
      ∀ x ∈ kahnLoop (adjFromE E) fuel queue indeg done, P x := by
  intro fuel
  induction fuel with
  | zero =>
    intro queue indeg done _ hdone x hx
    exact hdone x hx
  | succ fuel ih =>
    intro queue indeg done hqueue hdone x hx
    cases queue with
    | nil => exact hdone x hx
    | cons u rest =>
      rw [kahnLoop_cons] at hx
      refine ih _ _ _ ?_ ?_ x hx
      · intro y hy
        rcases relax_fst_subset _ _ _ y hy with h | h
        · exact hqueue y (List.mem_cons_of_mem u h)
        · exact hE u y ((mem_adjFromE E u y).1 h)
      · intro y hy
        rcases List.mem_append.1 hy with h | h
        · exact hdone y h
        · exact hqueue y (by simp at h; simp [h])

theorem kahnLoop_forward (E : List (Nat × Nat)) :
    ∀ (fuel : Nat) (queue : List Nat) (indeg : Nat → Int) (done : List Nat),
      (∀ p, p < done.length → ∀ u, (u, done.getD p 0) ∈ E →
        ∃ q, q < p ∧ done.getD q 0 = u) →
      (∀ v ∈ queue, ∀ u, (u, v) ∈ E → u ∈ done) →
      (∀ v, indeg v = edgeCount E v done) →
      (done ++ queue).Nodup →
      ∀ p, p < (kahnLoop (adjFromE E) fuel queue indeg done).length →
        ∀ u, (u, (kahnLoop (adjFromE E) fuel queue indeg done).getD p 0) ∈ E →
          ∃ q, q < p ∧ (kahnLoop (adjFromE E) fuel queue indeg done).getD q 0 = u := by
  intro fuel
  induction fuel with
  | zero =>
    intro queue indeg done ha _ _ _ p hp u hu
    exact ha p hp u hu
  | succ fuel ih =>
    intro queue indeg done ha hb hc hd
    cases queue with
    | nil => exact ha
    | cons w rest =>
      rw [kahnLoop_cons]
      rw [List.nodup_append] at hd
      obtain ⟨hdone_nodup, hcons_nodup, hdisj⟩ := hd
      have hwdone : w ∉ done := fun hw => hdisj hw (by simp)
      have hwrest : w ∉ rest := (List.nodup_cons.1 hcons_nodup).1
      have hrest_nodup : rest.Nodup := (List.nodup_cons.1 hcons_nodup).2
      have hsub : ∀ v, indeg v - ((adjFromE E w).count v : Int) =
          edgeCount E v (done ++ [w]) := by
        intro v
        rw [hc v, adj_count_eq, edgeCount_split E v w done hwdone]
        ring
      have hsnd : ((adjFromE E w).foldl kahnRelax (rest, indeg)).2 =
          fun v => indeg v - ((adjFromE E w).count v : Int) :=
        relax_snd _ _ _
      have hnn : ∀ v, 0 ≤ indeg v - ((adjFromE E w).count v : Int) := by
        intro v
        rw [hsub v]
        exact edgeCount_nonneg E v _
      have hc' : ∀ v, ((adjFromE E w).foldl kahnRelax (rest, indeg)).2 v =
          edgeCount E v (done ++ [w]) := by
        intro v
        rw [hsnd]
        exact hsub v
      have ha' : ∀ p, p < (done ++ [w]).length →
          ∀ u, (u, (done ++ [w]).getD p 0) ∈ E →
            ∃ q, q < p ∧ (done ++ [w]).getD q 0 = u := by
        intro p hp u hu
        rw [List.length_append, List.length_singleton] at hp
        by_cases hpd : p < done.length
        · rw [getD_append_lt _ _ _ _ hpd] at hu
          obtain ⟨q, hq, he⟩ := ha p hpd u hu
          exact ⟨q, hq, by
            rw [getD_append_lt _ _ _ _ (Nat.lt_trans hq hpd)]
            exact he⟩
        · have hpl : p = done.length := by omega
          subst hpl
          rw [getD_concat_length] at hu
          have hudone : u ∈ done := hb w (by simp) u hu
          obtain ⟨q, hq, he⟩ := mem_getD_index done u 0 hudone
          exact ⟨q, hq, by rw [getD_append_lt _ _ _ _ hq]; exact he⟩
      have hb' : ∀ v ∈ ((adjFromE E w).foldl kahnRelax (rest, indeg)).1,
          ∀ u, (u, v) ∈ E → u ∈ done ++ [w] := by
        intro v hv u hu
        rcases relax_fst_final_zero _ _ _ hnn v hv with h | ⟨_, hval⟩
        · exact List.mem_append_left _ (hb v (List.mem_cons_of_mem w h) u hu)
        · have h0 : edgeCount E v (done ++ [w]) = 0 := by
            rw [← hsub v]
            exact hval
          exact edgeCount_zero E v _ h0 u hu
      have hrestadj : ∀ x ∈ rest, x ∉ adjFromE E w := by
        intro x hx hxadj
        exact hwdone (hb x (List.mem_cons_of_mem w hx) w ((mem_adjFromE E w x).1 hxadj))
      have hd' : ((done ++ [w]) ++
          ((adjFromE E w).foldl kahnRelax (rest, indeg)).1).Nodup := by
        rw [List.nodup_append]
        refine ⟨?_, ?_, ?_⟩
        · rw [List.nodup_append]
          exact ⟨hdone_nodup, List.nodup_singleton w,
            fun a ha' ha'' => hwdone ((List.mem_singleton.1 ha'') ▸ ha')⟩
        · exact relax_fst_nodup _ _ _ hrest_nodup hrestadj hnn
        · intro x hx hx'
          rcases relax_fst_subset _ _ _ x hx' with h | h
          · rcases List.mem_append.1 hx with h1 | h1
            · exact hdisj h1 (List.mem_cons_of_mem w h)
            · exact hwrest ((List.mem_singleton.1 h1) ▸ h)
          · have hedge : (w, x) ∈ E := (mem_adjFromE E w x).1 h
            rcases List.mem_append.1 hx with h1 | h1
            · exact hwdone (forward_closed E done ha x h1 w hedge)
            · have hxw : x = w := List.mem_singleton.1 h1
              subst hxw
              exact hwdone (hb x (by simp) x hedge)
      exact ih _ _ _ ha' hb' hc' hd'

/-! ### enum / producer characterisations -/

theorem mem_enumFrom_spec {α : Type} (l : List α) :
    ∀ (k i : Nat) (g : α), (i, g) ∈ List.enumFrom k l →
      k ≤ i ∧ i < k + l.length ∧ ∀ d, l.getD (i - k) d = g := by
  induction l with
  | nil =>
    intro k i g h
    simp at h
  | cons x xs ih =>
    intro k i g h
    rcases List.mem_cons.1 h with h1 | h1
    · obtain ⟨rfl, rfl⟩ := Prod.mk.injEq .. ▸ h1
      refine ⟨Nat.le_refl _, by simp, ?_⟩
      intro d
      rw [Nat.sub_self]
      rfl
    · obtain ⟨hk, hlt, hget⟩ := ih (k + 1) i g h1
      refine ⟨by omega, by simp; omega, ?_⟩
      intro d
      have hik : i - k = (i - (k + 1)) + 1 := by omega
      rw [hik, List.getD_cons_succ]
      exact hget d

theorem mem_enumFrom_of {α : Type} (l : List α) :
    ∀ (k i : Nat), k ≤ i → i < k + l.length →
      ∀ d, (i, l.getD (i - k) d) ∈ List.enumFrom k l := by
  induction l with
  | nil =>
    intro k i hk hlt d
    simp at hlt
    omega
  | cons x xs ih =>
    intro k i hk hlt d
    by_cases hik : i = k
    · subst hik
      rw [Nat.sub_self]
      exact List.mem_cons_self _ _
    · have hik' : i - k = (i - (k + 1)) + 1 := by omega
      rw [hik', List.getD_cons_succ]
      exact List.mem_cons_of_mem _ (ih (k + 1) i (by omega) (by simp at hlt ⊢; omega) d)

theorem edgesOf_mem_elim (comb : List Inst) (u j : Nat)
    (h : (u, j) ∈ edgesOf comb) :
    j < comb.length ∧
      ∃ s ∈ inNames (comb.getD j noInst), producerOf comb s = some u := by
  unfold edgesOf at h
  rw [List.mem_flatMap] at h
  obtain ⟨p, hp, hmem⟩ := h
  rw [List.mem_filterMap] at hmem
  obtain ⟨s, hs, hmap⟩ := hmem
  rw [Option.map_eq_some'] at hmap
  obtain ⟨u', hu', heq⟩ := hmap
  have hu2 : u' = u := congrArg Prod.fst heq
  have hj2 : p.1 = j := congrArg Prod.snd heq
  subst hu2
  obtain ⟨-, hjlt, hget⟩ := mem_enumFrom_spec comb 0 p.1 p.2 (by
    have hpe : p = (p.1, p.2) := rfl
    rw [← hpe]
    exact hp)
  rw [hj2] at hjlt hget
  refine ⟨by simpa using hjlt, s, ?_, hu'⟩
  rw [show j - 0 = j from rfl] at hget
  rw [hget noInst]
  exact hs

theorem edgesOf_mem_intro (comb : List Inst) (u j : Nat) (s : String)
    (hj : j < comb.length) (hs : s ∈ inNames (comb.getD j noInst))
    (hprod : producerOf comb s = some u) : (u, j) ∈ edgesOf comb := by
  unfold edgesOf
  rw [List.mem_flatMap]
  refine ⟨(j, comb.getD j noInst), ?_, ?_⟩
  · have h := mem_enumFrom_of comb 0 j (Nat.zero_le _) (by simpa using hj) noInst
    rw [show j - 0 = j from rfl] at h
    exact h
  · rw [List.mem_filterMap]
    refine ⟨s, hs, ?_⟩
    rw [hprod]
    rfl

theorem producer_foldl_unchanged (l : List Inst) :
    ∀ (k : Nat) (pm : String → Option Nat) (s : String),
      (∀ g ∈ l, outName g ≠ s) →
      ((List.enumFrom k l).foldl
        (fun pm p => fun s' => if s' = outName p.2 then some p.1 else pm s') pm) s = pm s := by
  induction l with
  | nil =>
    intro k pm s _
    rfl
  | cons g gs ih =>
    intro k pm s h
    show ((List.enumFrom (k + 1) gs).foldl _
      (fun s' => if s' = outName g then some k else pm s')) s = pm s
    rw [ih (k + 1) _ s (fun g' hg' => h g' (List.mem_cons_of_mem g hg'))]
    exact if_neg (fun hs => h g (List.mem_cons_self g gs) hs.symm)

theorem producer_foldl_some (l : List Inst) :
    ∀ (k : Nat) (pm : String → Option Nat) (s : String) (u : Nat),
      ((List.enumFrom k l).foldl
        (fun pm p => fun s' => if s' = outName p.2 then some p.1 else pm s') pm) s = some u →
      (pm s = some u ∧ ∀ g ∈ l, outName g ≠ s) ∨
      (k ≤ u ∧ u < k + l.length ∧ outName (l.getD (u - k) noInst) = s) := by
  induction l with
  | nil =>
    intro k pm s u h
    exact Or.inl ⟨h, by simp⟩
  | cons g gs ih =>
    intro k pm s u h
    have h' := ih (k + 1) (fun s' => if s' = outName g then some k else pm s') s u h
    rcases h' with ⟨hpm1, hrest⟩ | ⟨hk, hlt, hout⟩
    · replace hpm1 : (if s = outName g then some k else pm s) = some u := hpm1
      by_cases hs : s = outName g
      · rw [if_pos hs] at hpm1
        have hu : k = u := Option.some.inj hpm1
        subst hu
        refine Or.inr ⟨Nat.le_refl _, by simp, ?_⟩
        rw [Nat.sub_self]
        exact hs.symm
      · rw [if_neg hs] at hpm1
        refine Or.inl ⟨hpm1, ?_⟩
        intro g' hg'
        rcases List.mem_cons.1 hg' with rfl | hg2
        · exact fun he => hs he.symm
        · exact hrest g' hg2
    · refine Or.inr ⟨by omega, by simp; omega, ?_⟩
      have hik : u - k = (u - (k + 1)) + 1 := by omega
      rw [hik, List.getD_cons_succ]
      exact hout

theorem producer_foldl_exists (l : List Inst) :
    ∀ (k : Nat) (pm : String → Option Nat) (s : String),
      (∃ g ∈ l, outName g = s) →
      ∃ u, ((List.enumFrom k l).foldl
        (fun pm p => fun s' => if s' = outName p.2 then some p.1 else pm s') pm) s = some u := by
  induction l with
  | nil =>
    intro k pm s h
    simp at h
  | cons g gs ih =>
    intro k pm s h
    by_cases hgs : ∃ g' ∈ gs, outName g' = s
    · exact ih (k + 1) _ s hgs
    · obtain ⟨g', hg', hout⟩ := h
      have hgg : g' = g := by
        rcases List.mem_cons.1 hg' with rfl | hmem
        · rfl
        · exact absurd ⟨g', hmem, hout⟩ hgs
      subst hgg
      refine ⟨k, ?_⟩
      show ((List.enumFrom (k + 1) gs).foldl _
        (fun s' => if s' = outName g' then some k else pm s')) s = some k
      rw [producer_foldl_unchanged gs (k + 1) _ s
        (fun g2 hg2 he => hgs ⟨g2, hg2, he⟩)]
      exact if_pos hout.symm

theorem producerOf_some (comb : List Inst) (s : String) (u : Nat)
    (h : producerOf comb s = some u) :
    u < comb.length ∧ outName (comb.getD u noInst) = s := by
  have h' := producer_foldl_some comb 0 (fun _ => none) s u h
  rcases h' with ⟨hnone, _⟩ | ⟨-, hlt, hout⟩
  · exact Option.noConfusion hnone
  · exact ⟨by simpa using hlt, by rw [show u - 0 = u from rfl] at hout; exact hout⟩

theorem producerOf_exists (comb : List Inst) (s : String)
    (h : ∃ g ∈ comb, outName g = s) : ∃ u, producerOf comb s = some u :=
  producer_foldl_exists comb 0 (fun _ => none) s h

theorem indeg0_eq_edgeCount (comb : List Inst) (v : Nat) :
    indeg0 comb v = edgeCount (edgesOf comb) v [] := by
  unfold indeg0 edgeCount
  congr 1
  rw [← List.countP_eq_length_filter]
  apply List.countP_congr
  intro e _
  by_cases h : e.2 = v <;> simp [h]

theorem kahnSort_forward (comb : List Inst) :
    ∀ p, p < (kahnSort comb).length →
      ∀ u, (u, (kahnSort comb).getD p 0) ∈ edgesOf comb →
        ∃ q, q < p ∧ (kahnSort comb).getD q 0 = u := by
  have h := kahnLoop_forward (edgesOf comb) (comb.length + 1)
    ((List.range comb.length).filter (fun i => indeg0 comb i == 0)) (indeg0 comb) []
    (by intro p hp; simp at hp)
    (by
      intro v hv u hu
      have h0 : indeg0 comb v = 0 := by
        have := (List.mem_filter.1 hv).2
        simpa using this
      rw [indeg0_eq_edgeCount] at h0
      exact edgeCount_zero _ v [] h0 u hu)
    (fun v => indeg0_eq_edgeCount comb v)
    (by
      simp only [List.nil_append]
      exact (List.nodup_range comb.length).filter _)
  exact h

theorem kahnSort_lt (comb : List Inst) : ∀ x ∈ kahnSort comb, x < comb.length := by
  apply kahnLoop_mem (edgesOf comb) (fun x => x < comb.length)
  · intro u v huv
    exact (edgesOf_mem_elim comb u v huv).1
  · intro x hx
    exact List.mem_range.1 (List.mem_filter.1 hx).1
  · intro x hx
    simp at hx

theorem sortedGates_length (insts : List Inst) :
    (sortedGates insts).length = (kahnSort (combGates insts)).length := by
  rw [sortedGates, List.length_map]

theorem sortedGates_getD (insts : List Inst) (p : Nat)
    (hp : p < (kahnSort (combGates insts)).length) :
    (sortedGates insts).getD p noInst =
      (combGates insts).getD ((kahnSort (combGates insts)).getD p 0) noInst := by
  unfold sortedGates
  rw [List.getD_eq_getElem _ _ (by simpa), List.getElem_map,
    List.getD_eq_getElem _ _ hp]
  rfl

theorem sortedGates_orderedWrites (insts : List Inst)
    (hwf : ∀ g ∈ insts, g.gtype = "dff" ∨
      (g.gtype ∈ validCombTypes ∧ 2 ≤ g.ports.length)) :
    orderedWrites (sortedGates insts) := by
  intro p hp t ht hex
  obtain ⟨j, hj, hwj⟩ := hex
  have hpR : p < (kahnSort (combGates insts)).length := by
    rw [sortedGates_length] at hp
    exact hp
  have hjR : j < (kahnSort (combGates insts)).length := by
    rw [sortedGates_length] at hj
    exact hj
  have hLp := sortedGates_getD insts p hpR
  have hLj := sortedGates_getD insts j hjR
  have hrp : (kahnSort (combGates insts)).getD p 0 < (combGates insts).length :=
    kahnSort_lt _ _ (getD_mem_lt _ p 0 hpR)
  have hrj : (kahnSort (combGates insts)).getD j 0 < (combGates insts).length :=
    kahnSort_lt _ _ (getD_mem_lt _ j 0 hjR)
  have hgj_mem : (combGates insts).getD ((kahnSort (combGates insts)).getD j 0) noInst ∈
      combGates insts := getD_mem_lt _ _ noInst hrj
  have hout_j : outName ((combGates insts).getD
      ((kahnSort (combGates insts)).getD j 0) noInst) = t := by
    obtain ⟨i, rest, hports, -⟩ := writesOut_parts _ t (hLj ▸ hwj)
    rw [outName, hports]
    rfl
  obtain ⟨u, hu⟩ := producerOf_exists (combGates insts) t ⟨_, hgj_mem, hout_j⟩
  have hedge : (u, (kahnSort (combGates insts)).getD p 0) ∈ edgesOf (combGates insts) :=
    edgesOf_mem_intro _ u _ t hrp (by rw [← hLp]; exact ht) hu
  obtain ⟨q, hq, hqe⟩ := kahnSort_forward (combGates insts) p hpR u hedge
  have hqR : q < (kahnSort (combGates insts)).length := Nat.lt_trans hq hpR
  have hLq := sortedGates_getD insts q hqR
  obtain ⟨hult, houtu⟩ := producerOf_some (combGates insts) t u hu
  have hgu_mem : (combGates insts).getD u noInst ∈ combGates insts :=
    getD_mem_lt _ u noInst hult
  have hsub := List.mem_filter.1 hgu_mem
  have hnotdff : ((combGates insts).getD u noInst).gtype ≠ "dff" := by
    have := hsub.2
    simpa using this
  have hvalid : ((combGates insts).getD u noInst).gtype ∈ validCombTypes ∧
      2 ≤ ((combGates insts).getD u noInst).ports.length := by
    rcases hwf _ hsub.1 with h | h
    · exact absurd h hnotdff
    · exact h
  have hw_u : writesOut ((combGates insts).getD u noInst) = some t := by
    rcases hpp : ((combGates insts).getD u noInst).ports with _ | ⟨a, tail⟩
    · rw [hpp] at hvalid
      simp at hvalid
    · rcases htl : tail with _ | ⟨b, rest'⟩
      · rw [hpp, htl] at hvalid
        simp at hvalid
      · rw [writesOut_eq_cons2 _ a b rest' (by rw [hpp, htl]), if_pos hvalid.1]
        rw [← houtu, outName, hpp]
        rfl
  refine ⟨q, hq, ?_⟩
  rw [hLq, hqe]
  exact hw_u

/-- C9: for every Chip whose gate list contains no DFFs (and whose gates
are the recognised combinational primitives with an output port and at
least one input port, as the data model requires), running step twice
from the same signal map gives the same signal map as running it once —
in particular every primary output is identical after each call. -/
theorem c9_combinational_purity (insts : List Inst) (m : SigMap)
    (hnodff : ∀ g ∈ insts, g.gtype ≠ "dff")
    (hwf : ∀ g ∈ insts, g.gtype ∈ validCombTypes ∧ 2 ≤ g.ports.length) :
    stepChip insts (stepChip insts m) = stepChip insts m := by
  have hdffs : dffsOf insts = [] := by
    rw [dffsOf, List.filter_eq_nil_iff]
    intro g hg
    simp [hnodff g hg]
  have hstep : ∀ m', stepChip insts m' = evalList (sortedGates insts) m' := by
    intro m'
    rw [stepChip, hdffs]
    rfl
  rw [hstep, hstep]
  exact evalList_idem _
    (sortedGates_orderedWrites insts (fun g hg => Or.inr (hwf g hg))) m

/-- Witness for C9 on a two-gate combinational netlist driven by an
all-ones map. -/
theorem c9_witness :
    stepChip demoInsts (stepChip demoInsts demoM) = stepChip demoInsts demoM :=
  c9_combinational_purity demoInsts demoM (by decide) (by decide)
